import Mathlib

/-!
# Verification of the Hybrid Memory Graph Engine

A shallow embedding of the memory-graph engine: the memory-node data model
(`src/types.ts`), the PostgreSQL storage adapter's observable semantics
(`src/storage/adapters/postgres-adapter.ts`, with the SQL row operations
modelled as operations on an in-memory list of rows), the embedding service
with retry/backoff (`src/vector/embedding-service.ts`), the orchestration
layer (`MemoryStorage`), and the mutation-invariant layer
(`MemoryToolHandler`).

Conventions of the embedding:
* A `Memory` row keeps the fields the verified claims are about
  (`id`, `entityId`, `content`, `embedding`, `outgoingEdges`); the
  backend-assigned timestamps and the ephemeral `similarity` field play no
  role in any claim and are omitted.
* Embedding vectors (`number[]`) are modelled as `List Int`; only their
  identity matters to the claims, never floating-point arithmetic.
* Promises are modelled by explicit state passing; a thrown JS error is an
  `Except.error` carrying the message; `async` fan-out (`Promise.all`) over
  distinct row ids is sequentialised in list order.
* The external embedding provider is an attempt-indexed oracle
  `Nat → String → Except String (List Int)`, so that one call can fail and a
  retry can succeed, exactly as the retry loop of the source assumes.
-/

namespace MemoryGraph

/-- Memory node (`Memory` in `src/types.ts`): the sole entity of the data
model.  `embedding` is optional; `outgoingEdges` is an ordered list of other
node ids. -/
structure Memory where
  id : String
  entityId : String
  content : String
  embedding : Option (List Int) := none
  outgoingEdges : List String := []
deriving DecidableEq, Repr

/-- The storage backend's state: the rows of the `memories` table, in
insertion (`created_at`) order. -/
abbrev Store := List Memory

/-- `PostgresAdapter.getMemory`: `SELECT * FROM memories WHERE id = $1`,
returning the first row or `null`. -/
def getMemory (st : Store) (memoryId : String) : Option Memory :=
  st.find? (fun m => m.id == memoryId)

/-- JS `String.prototype.trim()`, as the source uses it for validation and
text normalisation: strips leading and trailing whitespace.  It is defined
over the character list so that it is kernel-computable (Lean's built-in
`String.trim` works on byte positions and does not reduce in proofs). -/
def jsTrim (s : String) : String :=
  String.mk (((s.data.dropWhile Char.isWhitespace).reverse.dropWhile
    Char.isWhitespace).reverse)

/-! ## Graph traversal (`PostgresAdapter.getConnectedMemories`) -/

/-- The ids the BFS loop can ever mark visited: every row id and every edge
target, plus whatever start id the caller passes (handled separately).  Used
only as a termination measure. -/
def visitUniverse (st : Store) : List String :=
  st.map (fun m => m.id) ++ st.flatMap (fun m => m.outgoingEdges)

/-- One-step termination measure helper: the ids of `visitUniverse` not yet
visited. -/
def unvisitedCount (st : Store) (visited : List String) : Nat :=
  ((visitUniverse st).filter (fun x => x ∉ visited)).length

theorem unvisitedCount_cons_le (st : Store) (visited : List String) (a : String) :
    unvisitedCount st (a :: visited) ≤ unvisitedCount st visited := by
  unfold unvisitedCount
  apply List.Sublist.length_le
  apply List.monotone_filter_right
  intro x hx
  simp only [decide_eq_true_eq] at *
  intro h
  exact hx (List.mem_cons_of_mem _ h)

theorem unvisitedCount_cons_lt (st : Store) (visited : List String) (a : String)
    (ha : a ∈ visitUniverse st) (hav : a ∉ visited) :
    unvisitedCount st (a :: visited) < unvisitedCount st visited := by
  unfold unvisitedCount
  have hsub : ((visitUniverse st).filter (fun x => x ∉ a :: visited)).Sublist
      ((visitUniverse st).filter (fun x => x ∉ visited)) := by
    apply List.monotone_filter_right
    intro x hx
    simp only [decide_eq_true_eq] at *
    intro h
    exact hx (List.mem_cons_of_mem _ h)
  rcases Nat.lt_or_ge (((visitUniverse st).filter (fun x => x ∉ a :: visited)).length)
      (((visitUniverse st).filter (fun x => x ∉ visited)).length) with h | h
  · exact h
  · exfalso
    have heq : (visitUniverse st).filter (fun x => x ∉ a :: visited) =
        (visitUniverse st).filter (fun x => x ∉ visited) :=
      hsub.eq_of_length_le h
    have hmem : a ∈ (visitUniverse st).filter (fun x => x ∉ visited) := by
      simp only [List.mem_filter, decide_eq_true_eq]
      exact ⟨ha, hav⟩
    rw [← heq] at hmem
    simp only [List.mem_filter, decide_eq_true_eq] at hmem
    exact hmem.2 (List.mem_cons_self a visited)

/--
The BFS loop of `PostgresAdapter.getConnectedMemories`
(`postgres-adapter.ts` lines 201–232), with the loop state
(queue of `{id, depth}` pairs, visited set, results) made explicit.
Each iteration pops the queue head; an already-visited id or an entry past
`maxDepth` is skipped; otherwise the id is marked visited, the node (if it
exists) is emitted when its depth is positive, and its unvisited successors
are appended to the queue at depth + 1 when expansion is still allowed.
-/
def bfsLoop (st : Store) (maxDepth : Nat) :
    List (String × Nat) → List String → List Memory → List Memory
  | [], _, results => results
  | (id, d) :: queue, visited, results =>
    if id ∈ visited ∨ d > maxDepth then
      bfsLoop st maxDepth queue visited results
    else
      match hm : getMemory st id with
      | none => bfsLoop st maxDepth queue (id :: visited) results
      | some m =>
        let results' := if d > 0 then results ++ [m] else results
        let queue' := if d < maxDepth then
            queue ++ (m.outgoingEdges.filter (fun e => e ∉ id :: visited)).map
              (fun e => (e, d + 1))
          else queue
        bfsLoop st maxDepth queue' (id :: visited) results'
  termination_by queue visited _ => (unvisitedCount st visited, queue.length)
  decreasing_by
  · exact Prod.Lex.right _ (by simp)
  · rcases Nat.lt_or_ge (unvisitedCount st (id :: visited)) (unvisitedCount st visited) with
      h | h
    · exact Prod.Lex.left _ _ h
    · have heq : unvisitedCount st (id :: visited) = unvisitedCount st visited :=
        Nat.le_antisymm (unvisitedCount_cons_le st visited id) h
      rw [heq]
      exact Prod.Lex.right _ (by simp)
  · rename_i hnotskip
    apply Prod.Lex.left
    apply unvisitedCount_cons_lt
    · have hmem : m ∈ st := List.mem_of_find?_eq_some hm
      have hid : m.id = id := by
        have := List.find?_some hm
        simpa using this
      unfold visitUniverse
      exact List.mem_append_left _ (hid ▸ List.mem_map_of_mem (fun m => m.id) hmem)
    · intro hvis
      exact hnotskip (Or.inl hvis)

/-- `PostgresAdapter.getConnectedMemories(memoryId, depth)`: BFS from
`memoryId`, excluding the start node, bounded by `depth`. -/
def getConnectedMemories (st : Store) (memoryId : String) (depth : Nat := 1) :
    List Memory :=
  bfsLoop st depth [(memoryId, 0)] [] []

/-- `PathLen st a b n`: there is a directed path of length exactly `n` from
`a` to `b`, following `outgoingEdges` of nodes that exist in the store.  This
is the specification-side notion of reachability used to characterise the
BFS. -/
inductive PathLen (st : Store) : String → String → Nat → Prop
  | refl (a : String) : PathLen st a a 0
  | tail {a b c : String} {n : Nat} {m : Memory} :
      PathLen st a b n → getMemory st b = some m → c ∈ m.outgoingEdges →
      PathLen st a c (n + 1)

theorem PathLen.zero_eq {st : Store} {a b : String} (h : PathLen st a b 0) :
    a = b := by
  cases h
  rfl

theorem PathLen.succ_inv {st : Store} {a c : String} {n : Nat}
    (h : PathLen st a c (n + 1)) :
    ∃ b m, PathLen st a b n ∧ getMemory st b = some m ∧ c ∈ m.outgoingEdges := by
  cases h with
  | tail hp hm he => exact ⟨_, _, hp, hm, he⟩

theorem PathLen.start_exists {st : Store} {a c : String} {n : Nat}
    (h : PathLen st a c n) (hn : 1 ≤ n) : ∃ m, getMemory st a = some m := by
  induction h with
  | refl => omega
  | @tail b' c' n' m' hp hm _ ih =>
    rcases Nat.eq_zero_or_pos n' with h0 | h1
    · subst h0
      exact ⟨_, hp.zero_eq ▸ hm⟩
    · exact ih h1

/-- One level of the BFS loop: processes the frontier `A`, whose entries all
sit at depth `d`, accumulating the next frontier (depth `d + 1`) in `acc`.
This is not a separate algorithm: `bfsLoop_level` below proves that
`bfsLoop` factors through it level by level. -/
def procLevel (st : Store) (maxDepth d : Nat) :
    List String → List String → List Memory → List String →
    List String × List String × List Memory
  | [], visited, results, acc => (acc, visited, results)
  | u :: A, visited, results, acc =>
    if u ∈ visited ∨ d > maxDepth then
      procLevel st maxDepth d A visited results acc
    else
      match getMemory st u with
      | none => procLevel st maxDepth d A (u :: visited) results acc
      | some m =>
        let results' := if d > 0 then results ++ [m] else results
        let acc' := if d < maxDepth then
            acc ++ m.outgoingEdges.filter (fun e => e ∉ u :: visited)
          else acc
        procLevel st maxDepth d A (u :: visited) results' acc'

theorem bfsLoop_nil {st : Store} {D : Nat} {visited : List String}
    {results : List Memory} : bfsLoop st D [] visited results = results := by
  rw [bfsLoop]

theorem bfsLoop_cons_skip {st : Store} {D : Nat} {id : String} {d : Nat}
    {queue : List (String × Nat)} {visited : List String} {results : List Memory}
    (h : id ∈ visited ∨ d > D) :
    bfsLoop st D ((id, d) :: queue) visited results =
      bfsLoop st D queue visited results := by
  rw [bfsLoop]
  simp [h]

theorem bfsLoop_cons_none {st : Store} {D : Nat} {id : String} {d : Nat}
    {queue : List (String × Nat)} {visited : List String} {results : List Memory}
    (h : ¬(id ∈ visited ∨ d > D)) (hm : getMemory st id = none) :
    bfsLoop st D ((id, d) :: queue) visited results =
      bfsLoop st D queue (id :: visited) results := by
  rw [bfsLoop]
  simp only [h, if_false, ite_false]
  split <;> simp_all

theorem bfsLoop_cons_some {st : Store} {D : Nat} {id : String} {d : Nat}
    {queue : List (String × Nat)} {visited : List String} {results : List Memory}
    {m : Memory} (h : ¬(id ∈ visited ∨ d > D)) (hm : getMemory st id = some m) :
    bfsLoop st D ((id, d) :: queue) visited results =
      bfsLoop st D
        (if d < D then
          queue ++ (m.outgoingEdges.filter (fun e => e ∉ id :: visited)).map
            (fun e => (e, d + 1))
         else queue)
        (id :: visited)
        (if d > 0 then results ++ [m] else results) := by
  rw [bfsLoop]
  simp only [h, if_false, ite_false]
  split <;> simp_all

theorem procLevel_nil {st : Store} {D d : Nat} {visited : List String}
    {results : List Memory} {acc : List String} :
    procLevel st D d [] visited results acc = (acc, visited, results) := rfl

theorem procLevel_cons_skip {st : Store} {D d : Nat} {u : String}
    {A visited : List String} {results : List Memory} {acc : List String}
    (h : u ∈ visited ∨ d > D) :
    procLevel st D d (u :: A) visited results acc =
      procLevel st D d A visited results acc := by
  rw [procLevel]
  simp [h]

theorem procLevel_cons_none {st : Store} {D d : Nat} {u : String}
    {A visited : List String} {results : List Memory} {acc : List String}
    (h : ¬(u ∈ visited ∨ d > D)) (hm : getMemory st u = none) :
    procLevel st D d (u :: A) visited results acc =
      procLevel st D d A (u :: visited) results acc := by
  rw [procLevel]
  simp [h, hm]

theorem procLevel_cons_some {st : Store} {D d : Nat} {u : String}
    {A visited : List String} {results : List Memory} {acc : List String}
    {m : Memory} (h : ¬(u ∈ visited ∨ d > D)) (hm : getMemory st u = some m) :
    procLevel st D d (u :: A) visited results acc =
      procLevel st D d A (u :: visited)
        (if d > 0 then results ++ [m] else results)
        (if d < D then acc ++ m.outgoingEdges.filter (fun e => e ∉ u :: visited)
         else acc) := by
  rw [procLevel]
  simp [h, hm]

theorem getMemory_eq_id {st : Store} {i : String} {m : Memory}
    (h : getMemory st i = some m) : m.id = i := by
  have := List.find?_some h
  simpa using this

theorem getMemory_mem {st : Store} {i : String} {m : Memory}
    (h : getMemory st i = some m) : m ∈ st :=
  List.mem_of_find?_eq_some h

theorem procLevel_acc_sub {st : Store} {D d : Nat} (A : List String) :
    ∀ (visited : List String) (results : List Memory) (acc : List String)
      (x : String), x ∈ acc → x ∈ (procLevel st D d A visited results acc).1 := by
  induction A with
  | nil =>
    intro visited results acc x hx
    simpa [procLevel_nil] using hx
  | cons u A ih =>
    intro visited results acc x hx
    by_cases h : u ∈ visited ∨ d > D
    · rw [procLevel_cons_skip h]
      exact ih _ _ _ _ hx
    · cases hm : getMemory st u with
      | none =>
        rw [procLevel_cons_none h hm]
        exact ih _ _ _ _ hx
      | some m =>
        rw [procLevel_cons_some h hm]
        apply ih
        by_cases hdD : d < D
        · simp only [hdD, if_true]
          exact List.mem_append_left _ hx
        · simpa [hdD] using hx

theorem procLevel_visited_iff {st : Store} {D d : Nat} (hd : d ≤ D)
    (A : List String) :
    ∀ (visited : List String) (results : List Memory) (acc : List String)
      (x : String),
      x ∈ (procLevel st D d A visited results acc).2.1 ↔
        x ∈ visited ∨ x ∈ A := by
  induction A with
  | nil =>
    intro visited results acc x
    simp [procLevel_nil]
  | cons u A ih =>
    intro visited results acc x
    by_cases h : u ∈ visited ∨ d > D
    · have hu : u ∈ visited := by
        rcases h with h | h
        · exact h
        · omega
      rw [procLevel_cons_skip h, ih]
      simp only [List.mem_cons]
      constructor
      · rintro (hx | hx)
        · exact Or.inl hx
        · exact Or.inr (Or.inr hx)
      · rintro (hx | hx | hx)
        · exact Or.inl hx
        · exact Or.inl (hx ▸ hu)
        · exact Or.inr hx
    · have step : ∀ results' acc',
          (x ∈ (procLevel st D d A (u :: visited) results' acc').2.1 ↔
            x ∈ visited ∨ x ∈ u :: A) := by
        intro results' acc'
        rw [ih]
        simp only [List.mem_cons]
        tauto
      cases hm : getMemory st u with
      | none =>
        rw [procLevel_cons_none h hm]
        exact step _ _
      | some m =>
        rw [procLevel_cons_some h hm]
        exact step _ _

theorem procLevel_results_iff {st : Store} {D d : Nat} (hd : d ≤ D)
    (A : List String) :
    ∀ (visited : List String) (results : List Memory) (acc : List String)
      (m : Memory),
      m ∈ (procLevel st D d A visited results acc).2.2 ↔
        m ∈ results ∨
          (0 < d ∧ m.id ∈ A ∧ m.id ∉ visited ∧ getMemory st m.id = some m) := by
  induction A with
  | nil =>
    intro visited results acc m
    simp [procLevel_nil]
  | cons u A ih =>
    intro visited results acc m
    by_cases h : u ∈ visited ∨ d > D
    · have hu : u ∈ visited := by
        rcases h with h | h
        · exact h
        · omega
      rw [procLevel_cons_skip h, ih]
      constructor
      · rintro (hr | ⟨hd0, hA, hnv, hlook⟩)
        · exact Or.inl hr
        · exact Or.inr ⟨hd0, List.mem_cons_of_mem _ hA, hnv, hlook⟩
      · rintro (hr | ⟨hd0, hA, hnv, hlook⟩)
        · exact Or.inl hr
        · rcases List.mem_cons.mp hA with heq | hA'
          · exact absurd (heq ▸ hu) hnv
          · exact Or.inr ⟨hd0, hA', hnv, hlook⟩
    · have hunv : u ∉ visited := fun hc => h (Or.inl hc)
      cases hm : getMemory st u with
      | none =>
        rw [procLevel_cons_none h hm, ih]
        constructor
        · rintro (hr | ⟨hd0, hA, hnv, hlook⟩)
          · exact Or.inl hr
          · exact Or.inr ⟨hd0, List.mem_cons_of_mem _ hA,
              fun hc => hnv (List.mem_cons_of_mem _ hc), hlook⟩
        · rintro (hr | ⟨hd0, hA, hnv, hlook⟩)
          · exact Or.inl hr
          · rcases List.mem_cons.mp hA with heq | hA'
            · rw [heq, hm] at hlook
              exact absurd hlook (by simp)
            · refine Or.inr ⟨hd0, hA', ?_, hlook⟩
              intro hc
              rcases List.mem_cons.mp hc with heq | hc'
              · rw [heq, hm] at hlook
                exact absurd hlook (by simp)
              · exact hnv hc'
      | some m0 =>
        rw [procLevel_cons_some h hm, ih]
        by_cases hd0 : d > 0
        · rw [if_pos hd0]
          constructor
          · rintro (hr | ⟨_, hA, hnv, hlook⟩)
            · rcases List.mem_append.mp hr with hr' | hr'
              · exact Or.inl hr'
              · have hm0 : m = m0 := by simpa using hr'
                subst hm0
                refine Or.inr ⟨hd0, ?_, ?_, ?_⟩
                · rw [getMemory_eq_id hm]
                  exact List.mem_cons_self _ _
                · rw [getMemory_eq_id hm]
                  exact hunv
                · rw [getMemory_eq_id hm]
                  exact hm
            · refine Or.inr ⟨hd0, List.mem_cons_of_mem _ hA, ?_, hlook⟩
              intro hc
              exact hnv (List.mem_cons_of_mem _ hc)
          · rintro (hr | ⟨_, hA, hnv, hlook⟩)
            · exact Or.inl (List.mem_append_left _ hr)
            · by_cases hmu : m.id = u
              · rw [hmu, hm] at hlook
                have : m0 = m := by simpa using hlook
                exact Or.inl (List.mem_append_right _ (by simp [this]))
              · rcases List.mem_cons.mp hA with heq | hA'
                · exact absurd heq hmu
                · refine Or.inr ⟨hd0, hA', ?_, hlook⟩
                  intro hc
                  rcases List.mem_cons.mp hc with heq | hc'
                  · exact hmu heq
                  · exact hnv hc'
        · have hdz : d = 0 := by omega
          subst hdz
          simp

theorem procLevel_acc_mem {st : Store} {D d : Nat} (A : List String) :
    ∀ (visited : List String) (results : List Memory) (acc : List String)
      (x : String),
      x ∈ (procLevel st D d A visited results acc).1 →
      x ∈ acc ∨
        (d < D ∧ ∃ u mu, u ∈ A ∧ getMemory st u = some mu ∧
          x ∈ mu.outgoingEdges) := by
  induction A with
  | nil =>
    intro visited results acc x hx
    exact Or.inl (by simpa [procLevel_nil] using hx)
  | cons u A ih =>
    intro visited results acc x hx
    by_cases h : u ∈ visited ∨ d > D
    · rw [procLevel_cons_skip h] at hx
      rcases ih _ _ _ _ hx with hx' | ⟨hdD, u', mu, hu', hlook, hedge⟩
      · exact Or.inl hx'
      · exact Or.inr ⟨hdD, u', mu, List.mem_cons_of_mem _ hu', hlook, hedge⟩
    · cases hm : getMemory st u with
      | none =>
        rw [procLevel_cons_none h hm] at hx
        rcases ih _ _ _ _ hx with hx' | ⟨hdD, u', mu, hu', hlook, hedge⟩
        · exact Or.inl hx'
        · exact Or.inr ⟨hdD, u', mu, List.mem_cons_of_mem _ hu', hlook, hedge⟩
      | some m0 =>
        rw [procLevel_cons_some h hm] at hx
        rcases ih _ _ _ _ hx with hx' | ⟨hdD, u', mu, hu', hlook, hedge⟩
        · by_cases hdD : d < D
          · simp only [hdD, if_true] at hx'
            rcases List.mem_append.mp hx' with hx'' | hx''
            · exact Or.inl hx''
            · refine Or.inr ⟨hdD, u, m0, List.mem_cons_self _ _, hm, ?_⟩
              exact List.mem_of_mem_filter hx''
          · simp only [hdD, if_false, ite_false] at hx'
            exact Or.inl hx'
        · exact Or.inr ⟨hdD, u', mu, List.mem_cons_of_mem _ hu', hlook, hedge⟩

theorem procLevel_expands {st : Store} {D d : Nat} (A : List String) :
    ∀ (visited : List String) (results : List Memory) (acc : List String)
      (u : String) (mu : Memory) (x : String),
      u ∈ A → u ∉ visited → getMemory st u = some mu →
      x ∈ mu.outgoingEdges → d < D →
      x ∈ (procLevel st D d A visited results acc).2.1 ∨
        x ∈ (procLevel st D d A visited results acc).1 := by
  induction A with
  | nil =>
    intro _ _ _ _ _ _ hu
    exact absurd hu (List.not_mem_nil _)
  | cons u0 A ih =>
    intro visited results acc u mu x huA hunv hlook hedge hdD
    by_cases h : u0 ∈ visited ∨ d > D
    · have hu0 : u0 ∈ visited := by
        rcases h with h | h
        · exact h
        · omega
      rw [procLevel_cons_skip h]
      rcases List.mem_cons.mp huA with heq | huA'
      · exact absurd (heq ▸ hu0) hunv
      · exact ih _ _ _ _ _ _ huA' hunv hlook hedge hdD
    · cases hm : getMemory st u0 with
      | none =>
        rw [procLevel_cons_none h hm]
        rcases List.mem_cons.mp huA with heq | huA'
        · rw [heq, hm] at hlook
          exact absurd hlook (by simp)
        · refine ih _ _ _ _ _ _ huA' ?_ hlook hedge hdD
          intro hc
          rcases List.mem_cons.mp hc with heq | hc'
          · rw [heq, hm] at hlook
            exact absurd hlook (by simp)
          · exact hunv hc'
      | some m0 =>
        rw [procLevel_cons_some h hm]
        by_cases hxu : x ∈ u0 :: visited
        · left
          rw [procLevel_visited_iff (Nat.le_of_lt hdD)]
          exact Or.inl hxu
        · rcases List.mem_cons.mp huA with heq | huA'
          · subst heq
            rw [hm] at hlook
            have hmu0 : mu = m0 := by simpa using hlook.symm
            subst hmu0
            right
            apply procLevel_acc_sub
            simp only [hdD, if_true]
            apply List.mem_append_right
            simp only [List.mem_filter, decide_eq_true_eq]
            exact ⟨hedge, by simpa using hxu⟩
          · by_cases hu0u : u = u0
            · subst hu0u
              rw [hm] at hlook
              have hmu0 : mu = m0 := by simpa using hlook.symm
              subst hmu0
              right
              apply procLevel_acc_sub
              simp only [hdD, if_true]
              apply List.mem_append_right
              simp only [List.mem_filter, decide_eq_true_eq]
              exact ⟨hedge, by simpa using hxu⟩
            · refine ih _ _ _ _ _ _ huA' ?_ hlook hedge hdD
              intro hc
              rcases List.mem_cons.mp hc with heq | hc'
              · exact hu0u heq
              · exact hunv hc'

theorem procLevel_results_nodup {st : Store} {D d : Nat} (A : List String) :
    ∀ (visited : List String) (results : List Memory) (acc : List String),
      (results.map (fun r => r.id)).Nodup →
      (∀ r ∈ results, r.id ∈ visited) →
      ((procLevel st D d A visited results acc).2.2.map
          (fun r => r.id)).Nodup ∧
        ∀ r ∈ (procLevel st D d A visited results acc).2.2,
          r.id ∈ (procLevel st D d A visited results acc).2.1 := by
  induction A with
  | nil =>
    intro visited results acc hnd hmem
    simpa [procLevel_nil] using ⟨hnd, hmem⟩
  | cons u A ih =>
    intro visited results acc hnd hmem
    by_cases h : u ∈ visited ∨ d > D
    · rw [procLevel_cons_skip h]
      exact ih _ _ _ hnd hmem
    · have hunv : u ∉ visited := fun hc => h (Or.inl hc)
      cases hm : getMemory st u with
      | none =>
        rw [procLevel_cons_none h hm]
        exact ih _ _ _ hnd
          (fun r hr => List.mem_cons_of_mem _ (hmem r hr))
      | some m0 =>
        rw [procLevel_cons_some h hm]
        apply ih
        · by_cases hd0 : d > 0
          · simp only [hd0, if_true, List.map_append, List.map_cons,
              List.map_nil]
            rw [List.nodup_append]
            refine ⟨hnd, by simp, ?_⟩
            intro a ha hb
            simp only [List.map_cons, List.map_nil, List.mem_cons,
              List.not_mem_nil, or_false] at hb
            subst hb
            rcases List.mem_map.mp ha with ⟨r, hr, hrid⟩
            have : m0.id ∈ visited := by
              rw [← hrid]
              exact hmem r hr
            rw [getMemory_eq_id hm] at this
            exact hunv this
          · simpa [hd0] using hnd
        · intro r hr
          by_cases hd0 : d > 0
          · simp only [hd0, if_true] at hr
            rcases List.mem_append.mp hr with hr' | hr'
            · exact List.mem_cons_of_mem _ (hmem r hr')
            · have : r = m0 := by simpa using hr'
              subst this
              rw [getMemory_eq_id hm]
              exact List.mem_cons_self _ _
          · simp only [hd0, if_false, ite_false] at hr
            exact List.mem_cons_of_mem _ (hmem r hr)

/-- `bfsLoop` factors through `procLevel` one level at a time: a queue whose
entries are the frontier `A` at depth `d` followed by `B` at depth `d + 1`
is processed by finishing level `d` first (which only appends depth-`d + 1`
entries at the back), then continuing with the accumulated next frontier. -/
theorem bfsLoop_level (st : Store) (D : Nat) (d : Nat)
    (A : List String) (B : List String) (visited : List String)
    (results : List Memory) :
    bfsLoop st D
        (A.map (fun u => (u, d)) ++ B.map (fun u => (u, d + 1))) visited
        results =
      bfsLoop st D
        ((procLevel st D d A visited results B).1.map (fun u => (u, d + 1)))
        (procLevel st D d A visited results B).2.1
        (procLevel st D d A visited results B).2.2 := by
  induction A generalizing B visited results with
  | nil => simp [procLevel_nil]
  | cons u A ih =>
    by_cases h : u ∈ visited ∨ d > D
    · rw [List.map_cons, List.cons_append, bfsLoop_cons_skip h,
        procLevel_cons_skip h]
      exact ih B visited results
    · cases hm : getMemory st u with
      | none =>
        rw [List.map_cons, List.cons_append, bfsLoop_cons_none h hm,
          procLevel_cons_none h hm]
        exact ih B (u :: visited) results
      | some m =>
        rw [List.map_cons, List.cons_append, bfsLoop_cons_some h hm,
          procLevel_cons_some h hm]
        by_cases hd : d < D
        · simp only [hd, if_pos]
          rw [List.append_assoc, ← List.map_append]
          exact ih _ (u :: visited) _
        · simp only [hd, if_neg, not_false_iff]
          exact ih B (u :: visited) _

/-- Master invariant lemma for the BFS: starting from a single-level frontier
`A` at depth `a` (with `a + n = D`), under the standard BFS level invariants
the loop returns exactly the already-emitted results plus every stored node
not yet visited that is reachable from `s` in between `a` and `D` steps, with
no id emitted twice. -/
theorem bfsLoop_master (st : Store) (D : Nat) (s : String) :
    ∀ (n a : Nat) (A visited : List String) (results : List Memory),
      a + n = D → 1 ≤ a →
      (∀ u ∈ A, PathLen st s u a) →
      (∀ v j, j < a → PathLen st s v j → v ∈ visited) →
      (∀ v, PathLen st s v a → v ∈ visited ∨ v ∈ A) →
      (∀ w ∈ visited, ∀ mw, getMemory st w = some mw →
        ∀ x ∈ mw.outgoingEdges, x ∈ visited ∨ x ∈ A) →
      (∀ r ∈ results, getMemory st r.id = some r ∧ r.id ≠ s ∧
        ∃ j, 1 ≤ j ∧ j ≤ D ∧ PathLen st s r.id j) →
      (results.map (fun r => r.id)).Nodup →
      (∀ r ∈ results, r.id ∈ visited) →
      s ∈ visited →
      (∀ m, m ∈ bfsLoop st D (A.map (fun u => (u, a))) visited results ↔
        m ∈ results ∨ (getMemory st m.id = some m ∧ m.id ∉ visited ∧
          ∃ j, a ≤ j ∧ j ≤ D ∧ PathLen st s m.id j)) ∧
      ((bfsLoop st D (A.map (fun u => (u, a))) visited results).map
        (fun r => r.id)).Nodup := by
  intro n
  induction n with
  | zero =>
    intro a A visited results haD h1a h2 h3 h4 h5 h6 h7n h7m h8
    have haD' : a = D := by omega
    have hE := bfsLoop_level st D a A [] visited results
    simp only [List.map_nil, List.append_nil] at hE
    have hBnil : (procLevel st D a A visited results []).1 = [] := by
      rw [List.eq_nil_iff_forall_not_mem]
      intro x hx
      rcases procLevel_acc_mem A visited results [] x hx with hx' | ⟨hlt, _⟩
      · exact absurd hx' (List.not_mem_nil x)
      · omega
    rw [hE, hBnil, List.map_nil, bfsLoop_nil]
    constructor
    · intro m
      rw [procLevel_results_iff (by omega) A visited results [] m]
      constructor
      · rintro (hr | ⟨hd0, hA, hnv, hlook⟩)
        · exact Or.inl hr
        · exact Or.inr ⟨hlook, hnv, a, Nat.le_refl a, by omega, h2 _ hA⟩
      · rintro (hr | ⟨hlook, hnv, j, haj, hjD, hp⟩)
        · exact Or.inl hr
        · have hja : j = a := by omega
          subst hja
          rcases h4 _ hp with hv | hA
          · exact absurd hv hnv
          · exact Or.inr ⟨by omega, hA, hnv, hlook⟩
    · exact (@procLevel_results_nodup st D a A visited results [] h7n h7m).1
  | succ n ih =>
    intro a A visited results haD h1a h2 h3 h4 h5 h6 h7n h7m h8
    have haltD : a < D := by omega
    have haleD : a ≤ D := by omega
    have hE := bfsLoop_level st D a A [] visited results
    simp only [List.map_nil, List.append_nil] at hE
    rw [hE]
    have hvis_iff := @procLevel_visited_iff st D a haleD A visited results []
    have hres_iff := @procLevel_results_iff st D a haleD A visited results []
    -- invariants for the next level
    have h2' : ∀ u ∈ (procLevel st D a A visited results []).1,
        PathLen st s u (a + 1) := by
      intro u hu
      rcases procLevel_acc_mem A visited results [] u hu with hu' | ⟨_, p, mp, hpA, hplook, hedge⟩
      · exact absurd hu' (List.not_mem_nil u)
      · exact PathLen.tail (h2 p hpA) hplook hedge
    have h3' : ∀ v j, j < a + 1 → PathLen st s v j →
        v ∈ (procLevel st D a A visited results []).2.1 := by
      intro v j hj hp
      rw [hvis_iff]
      rcases Nat.lt_or_ge j a with hja | hja
      · exact Or.inl (h3 v j hja hp)
      · have : j = a := by omega
        subst this
        exact h4 v hp
    have h4' : ∀ v, PathLen st s v (a + 1) →
        v ∈ (procLevel st D a A visited results []).2.1 ∨
          v ∈ (procLevel st D a A visited results []).1 := by
      intro v hp
      rcases hp.succ_inv with ⟨w, mw, hpw, hwlook, hedge⟩
      by_cases hw : w ∈ visited
      · left
        rw [hvis_iff]
        exact h5 w hw mw hwlook v hedge
      · rcases h4 w hpw with hw' | hwA
        · exact absurd hw' hw
        · exact procLevel_expands A visited results [] w mw v hwA hw hwlook
            hedge haltD
    have h5' : ∀ w ∈ (procLevel st D a A visited results []).2.1,
        ∀ mw, getMemory st w = some mw → ∀ x ∈ mw.outgoingEdges,
          x ∈ (procLevel st D a A visited results []).2.1 ∨
            x ∈ (procLevel st D a A visited results []).1 := by
      intro w hw mw hwlook x hx
      rw [hvis_iff] at hw
      by_cases hwv : w ∈ visited
      · left
        rw [hvis_iff]
        exact h5 w hwv mw hwlook x hx
      · rcases hw with hw' | hwA
        · exact absurd hw' hwv
        · exact procLevel_expands A visited results [] w mw x hwA hwv hwlook
            hx haltD
    have h6' : ∀ r ∈ (procLevel st D a A visited results []).2.2,
        getMemory st r.id = some r ∧ r.id ≠ s ∧
          ∃ j, 1 ≤ j ∧ j ≤ D ∧ PathLen st s r.id j := by
      intro r hr
      rw [hres_iff] at hr
      rcases hr with hr | ⟨_, hA, hnv, hlook⟩
      · exact h6 r hr
      · refine ⟨hlook, ?_, a, h1a, haleD, h2 _ hA⟩
        intro hc
        exact hnv (hc ▸ h8)
    have h7' := @procLevel_results_nodup st D a A visited results [] h7n h7m
    have h8' : s ∈ (procLevel st D a A visited results []).2.1 := by
      rw [hvis_iff]
      exact Or.inl h8
    have hIH := ih (a + 1) (procLevel st D a A visited results []).1
      (procLevel st D a A visited results []).2.1
      (procLevel st D a A visited results []).2.2
      (by omega) (by omega) h2' h3' h4' h5' h6' h7'.1 h7'.2 h8'
    refine ⟨?_, hIH.2⟩
    intro m
    rw [hIH.1 m]
    constructor
    · rintro (hr | ⟨hlook, hnvp, j, hj1, hj2, hp⟩)
      · rw [hres_iff] at hr
        rcases hr with hr | ⟨_, hA, hnv, hlook⟩
        · exact Or.inl hr
        · exact Or.inr ⟨hlook, hnv, a, Nat.le_refl a, haleD, h2 _ hA⟩
      · refine Or.inr ⟨hlook, ?_, j, by omega, hj2, hp⟩
        intro hc
        apply hnvp
        rw [hvis_iff]
        exact Or.inl hc
    · rintro (hr | ⟨hlook, hnv, j, haj, hjD, hp⟩)
      · left
        rw [hres_iff]
        exact Or.inl hr
      · by_cases hmP : m.id ∈ (procLevel st D a A visited results []).2.1
        · rw [hvis_iff] at hmP
          rcases hmP with hmv | hmA
          · exact absurd hmv hnv
          · left
            rw [hres_iff]
            exact Or.inr ⟨by omega, hmA, hnv, hlook⟩
        · rcases Nat.eq_or_lt_of_le haj with hja | hja
          · exfalso
            apply hmP
            rw [hvis_iff]
            exact h4 m.id (hja ▸ hp)
          · exact Or.inr ⟨hlook, hmP, j, by omega, hjD, hp⟩

/-- Full characterisation of `getConnectedMemories`: it returns exactly the
stored nodes other than the start that are reachable from the start in
between `1` and `depth` steps. -/
theorem getConnectedMemories_mem_iff (st : Store) (s : String) (D : Nat)
    (m : Memory) :
    m ∈ getConnectedMemories st s D ↔
      getMemory st m.id = some m ∧ m.id ≠ s ∧
        ∃ j, 1 ≤ j ∧ j ≤ D ∧ PathLen st s m.id j := by
  unfold getConnectedMemories
  have h0 : ¬(s ∈ ([] : List String) ∨ 0 > D) := by simp
  cases hms : getMemory st s with
  | none =>
    rw [bfsLoop_cons_none h0 hms, bfsLoop_nil]
    simp only [List.not_mem_nil, false_iff]
    rintro ⟨hlook, hne, j, hj1, hjD, hp⟩
    rcases hp.start_exists hj1 with ⟨m', hm'⟩
    rw [hms] at hm'
    exact absurd hm' (by simp)
  | some ms =>
    rw [bfsLoop_cons_some h0 hms]
    rcases Nat.eq_zero_or_pos D with hD | hD
    · subst hD
      rw [if_neg (by omega : ¬(0 < 0)), if_neg (by omega : ¬(0 > 0)), bfsLoop_nil]
      simp only [List.not_mem_nil, false_iff]
      rintro ⟨_, _, j, hj1, hjD, _⟩
      omega
    · rw [if_pos hD, if_neg (by omega : ¬(0 > 0)), List.nil_append]
      have hmap : (ms.outgoingEdges.filter
          (fun e => e ∉ s :: ([] : List String))).map (fun e => (e, 0 + 1)) =
          (ms.outgoingEdges.filter (fun e => e ∉ s :: ([] : List String))).map
            (fun e => (e, 1)) := by
        simp
      rw [hmap]
      have hmaster := bfsLoop_master st D s (D - 1) 1
        (ms.outgoingEdges.filter (fun e => e ∉ s :: ([] : List String)))
        [s] [] (by omega) (by omega)
        (by
          intro u hu
          exact PathLen.tail (PathLen.refl s) hms (List.mem_of_mem_filter hu))
        (by
          intro v j hj hp
          have : j = 0 := by omega
          subst this
          rw [← hp.zero_eq]
          exact List.mem_cons_self _ _)
        (by
          intro v hp
          rcases hp.succ_inv with ⟨w, mw, hw0, hwlook, hedge⟩
          rw [← hw0.zero_eq] at hwlook
          rw [hms] at hwlook
          have hmw : mw = ms := by simpa using hwlook.symm
          subst hmw
          by_cases hv : v ∈ ([s] : List String)
          · exact Or.inl hv
          · right
            simp only [List.mem_filter, decide_eq_true_eq]
            exact ⟨hedge, by simpa using hv⟩)
        (by
          intro w hw mw hwlook x hx
          have hws : w = s := by simpa using hw
          rw [hws, hms] at hwlook
          have hmw : mw = ms := by simpa using hwlook.symm
          subst hmw
          by_cases hv : x ∈ ([s] : List String)
          · exact Or.inl hv
          · right
            simp only [List.mem_filter, decide_eq_true_eq]
            exact ⟨hx, by simpa using hv⟩)
        (by simp) (by simp) (by simp) (List.mem_cons_self _ _)
      rw [hmaster.1 m]
      simp only [List.not_mem_nil, false_or, List.mem_cons]
      constructor
      · rintro ⟨hlook, hnv, j, hj1, hjD, hp⟩
        refine ⟨hlook, ?_, j, hj1, hjD, hp⟩
        intro hc
        exact hnv (by simp [hc])
      · rintro ⟨hlook, hne, j, hj1, hjD, hp⟩
        refine ⟨hlook, ?_, j, hj1, hjD, hp⟩
        intro hc
        exact hne (by simpa using hc)

/-- The ids returned by `getConnectedMemories` contain no duplicates. -/
theorem getConnectedMemories_nodup (st : Store) (s : String) (D : Nat) :
    ((getConnectedMemories st s D).map (fun r => r.id)).Nodup := by
  unfold getConnectedMemories
  have h0 : ¬(s ∈ ([] : List String) ∨ 0 > D) := by simp
  cases hms : getMemory st s with
  | none =>
    rw [bfsLoop_cons_none h0 hms, bfsLoop_nil]
    simp
  | some ms =>
    rw [bfsLoop_cons_some h0 hms]
    rcases Nat.eq_zero_or_pos D with hD | hD
    · subst hD
      simp [bfsLoop_nil]
    · rw [if_pos hD, if_neg (by omega : ¬(0 > 0)), List.nil_append]
      have hmap : (ms.outgoingEdges.filter
          (fun e => e ∉ s :: ([] : List String))).map (fun e => (e, 0 + 1)) =
          (ms.outgoingEdges.filter (fun e => e ∉ s :: ([] : List String))).map
            (fun e => (e, 1)) := by
        simp
      rw [hmap]
      have hmaster := bfsLoop_master st D s (D - 1) 1
        (ms.outgoingEdges.filter (fun e => e ∉ s :: ([] : List String)))
        [s] [] (by omega) (by omega)
        (by
          intro u hu
          exact PathLen.tail (PathLen.refl s) hms (List.mem_of_mem_filter hu))
        (by
          intro v j hj hp
          have : j = 0 := by omega
          subst this
          rw [← hp.zero_eq]
          exact List.mem_cons_self _ _)
        (by
          intro v hp
          rcases hp.succ_inv with ⟨w, mw, hw0, hwlook, hedge⟩
          rw [← hw0.zero_eq] at hwlook
          rw [hms] at hwlook
          have hmw : mw = ms := by simpa using hwlook.symm
          subst hmw
          by_cases hv : v ∈ ([s] : List String)
          · exact Or.inl hv
          · right
            simp only [List.mem_filter, decide_eq_true_eq]
            exact ⟨hedge, by simpa using hv⟩)
        (by
          intro w hw mw hwlook x hx
          have hws : w = s := by simpa using hw
          rw [hws, hms] at hwlook
          have hmw : mw = ms := by simpa using hwlook.symm
          subst hmw
          by_cases hv : x ∈ ([s] : List String)
          · exact Or.inl hv
          · right
            simp only [List.mem_filter, decide_eq_true_eq]
            exact ⟨hx, by simpa using hv⟩)
        (by simp) (by simp) (by simp) (List.mem_cons_self _ _)
      exact hmaster.2

/-- Concrete chain A→B→C used by the traversal examples of the spec. -/
def chainStore : Store :=
  [{ id := "A", entityId := "e", content := "a", outgoingEdges := ["B"] },
   { id := "B", entityId := "e", content := "b", outgoingEdges := ["C"] },
   { id := "C", entityId := "e", content := "c" }]

/-- Concrete 2-cycle A→B→A used by the traversal examples of the spec. -/
def cycleStore : Store :=
  [{ id := "A", entityId := "e", content := "a", outgoingEdges := ["B"] },
   { id := "B", entityId := "e", content := "b", outgoingEdges := ["A"] }]

/-- **C1.** For every finite directed graph of memory nodes, every start id
`s` and every depth bound `D ≥ 0`, `getConnectedMemories(s, D)` terminates
(it is a total function of this development) and returns exactly the stored
nodes other than `s` reachable from `s` along `outgoingEdges` in at most `D`
steps, each emitted exactly once (their ids are pairwise distinct; that each
is discovered at its minimum depth is expressed by the characterisation
holding at every bound `D`, so a node first appears at the bound equal to its
shortest distance).  With depth 0 the result is empty; on the chain A→B→C
depth 1 gives {B} and depth 2 gives {B, C}; on the 2-cycle A→B→A depth 10
gives {B}. -/
theorem getConnectedMemories_correct :
    (∀ (st : Store) (s : String) (D : Nat) (m : Memory),
        m ∈ getConnectedMemories st s D ↔
          getMemory st m.id = some m ∧ m.id ≠ s ∧
            ∃ j, 1 ≤ j ∧ j ≤ D ∧ PathLen st s m.id j) ∧
    (∀ (st : Store) (s : String) (D : Nat),
        ((getConnectedMemories st s D).map (fun r => r.id)).Nodup) ∧
    (∀ (st : Store) (s : String), getConnectedMemories st s 0 = []) ∧
    (getConnectedMemories chainStore "A" 1).map (fun r => r.id) = ["B"] ∧
    (getConnectedMemories chainStore "A" 2).map (fun r => r.id) = ["B", "C"] ∧
    (getConnectedMemories cycleStore "A" 10).map (fun r => r.id) = ["B"] := by
  refine ⟨getConnectedMemories_mem_iff, getConnectedMemories_nodup, ?_, ?_, ?_, ?_⟩
  · intro st s
    rw [List.eq_nil_iff_forall_not_mem]
    intro m hm
    rw [getConnectedMemories_mem_iff] at hm
    rcases hm with ⟨_, _, j, hj1, hj0, _⟩
    omega
  · simp [getConnectedMemories, bfsLoop, getMemory, chainStore, List.find?]
  · simp [getConnectedMemories, bfsLoop, getMemory, chainStore, List.find?]
  · simp +decide [getConnectedMemories, bfsLoop, getMemory, cycleStore,
      List.find?]

/-! ## Storage adapter row operations

The remaining `PostgresAdapter` methods are SQL one-liners; their observable
semantics on the row list is embedded directly: `INSERT … RETURNING id`
appends a row with a backend-generated fresh id, `UPDATE … WHERE id` rewrites
every matching row (the id is the primary key, so at most one in a
well-formed store), `DELETE … WHERE id` removes the matching rows, and
`SELECT … WHERE entity_id … ORDER BY created_at DESC` filters and reverses
insertion order. -/

/-- The backend-generated id for a new row (`gen_random_uuid()` in the
migration): modelled as a concrete string that is provably distinct from
every id already stored — it is strictly longer than each of them. -/
def freshId (st : Store) : String :=
  st.foldr (fun m acc => m.id ++ acc) "" ++ "x"

theorem length_le_foldr_ids {st : Store} {m : Memory} (hm : m ∈ st) :
    m.id.length ≤ (st.foldr (fun m acc => m.id ++ acc) "").length := by
  induction st with
  | nil => exact absurd hm (List.not_mem_nil m)
  | cons m0 st ih =>
    simp only [List.foldr_cons, String.length_append]
    rcases List.mem_cons.mp hm with heq | hm'
    · subst heq
      omega
    · have := ih hm'
      omega

theorem freshId_not_mem {st : Store} {m : Memory} (hm : m ∈ st) :
    m.id ≠ freshId st := by
  intro hc
  have hlen : m.id.length = (freshId st).length := by rw [hc]
  unfold freshId at hlen
  rw [String.length_append] at hlen
  have hx : ("x" : String).length = 1 := rfl
  have := length_le_foldr_ids hm
  omega

/-- `MemoryUpdates` models TypeScript's
`Partial<Omit<Memory, 'id' | 'createdAt'>>`: a field set to `none` was not
supplied (`undefined`). -/
structure MemoryUpdates where
  content : Option String := none
  embedding : Option (List Int) := none
  outgoingEdges : Option (List String) := none
deriving DecidableEq, Repr

/-- The per-row effect of the `SET` clauses built by
`PostgresAdapter.updateMemory`: each supplied field overwrites the row's
field, the others are untouched. -/
def applyUpdates (u : MemoryUpdates) (m : Memory) : Memory :=
  { m with
    content := u.content.getD m.content
    embedding := match u.embedding with
      | some e => some e
      | none => m.embedding
    outgoingEdges := u.outgoingEdges.getD m.outgoingEdges }

/-- State effect of `UPDATE memories SET … WHERE id = $n`: every row whose id
matches is rewritten in place. -/
def updateRows (st : Store) (memoryId : String) (u : MemoryUpdates) : Store :=
  st.map (fun m => if m.id == memoryId then applyUpdates u m else m)

/-- `PostgresAdapter.updateMemory`: throws `Memory not found: <id>` when no
row matches, otherwise returns the updated row (`RETURNING *`, first row)
and the updated table. -/
def adapterUpdateMemory (st : Store) (memoryId : String) (u : MemoryUpdates) :
    Except String (Memory × Store) :=
  match getMemory st memoryId with
  | none => .error ("Memory not found: " ++ memoryId)
  | some m => .ok (applyUpdates u m, updateRows st memoryId u)

/-- `PostgresAdapter.createMemory`: `INSERT … RETURNING id`, appending a row
with a fresh backend-assigned id. -/
def adapterCreateMemory (st : Store) (entityId content : String)
    (embedding : Option (List Int)) (outgoingEdges : List String) :
    Memory × Store :=
  let m : Memory := { id := freshId st, entityId := entityId,
                      content := content, embedding := embedding,
                      outgoingEdges := outgoingEdges }
  (m, st ++ [m])

/-- `PostgresAdapter.deleteMemory`: `DELETE FROM memories WHERE id = $1`,
reporting whether any row was removed (`rowCount > 0`). -/
def adapterDeleteMemory (st : Store) (memoryId : String) : Bool × Store :=
  (st.any (fun m => m.id == memoryId),
   st.filter (fun m => !(m.id == memoryId)))

/-- `PostgresAdapter.getMemoriesByEntity`:
`SELECT * WHERE entity_id = $1 ORDER BY created_at DESC`. -/
def getMemoriesByEntity (st : Store) (entityId : String) : List Memory :=
  (st.filter (fun m => m.entityId == entityId)).reverse

/-! ## Embedding service (`src/vector/embedding-service.ts`) -/

/-- `EmbeddingService`: wraps an external provider (`AIModelAdapter`) with
retry options.  The provider is an attempt-indexed oracle so one call can
fail and the next can succeed; `aborted` models `signal?.aborted`. -/
structure EmbeddingService where
  provider : Nat → String → Except String (List Int)
  maxRetries : Nat := 3
  initialDelayMs : Nat := 500
  backoffFactor : Nat := 2
  aborted : Bool := false

/-- The `while (attempt <= maxRetries)` loop of
`EmbeddingService.withRetry`, also recording the sequence of `sleep(delay)`
durations.  On a failed attempt the counter is incremented; once it exceeds
`maxRetries` the last provider error is re-raised; otherwise, after the
cancellation check, the loop sleeps and multiplies the delay by the backoff
factor.  Falling out of the loop yields the generic `Failed after retries`
error. -/
def withRetryGo (maxRetries backoffFactor : Nat) (aborted : Bool)
    {α : Type} (fn : Nat → Except String α) :
    Nat → Nat → List Nat → Except String α × List Nat
  | attempt, delay, sleeps =>
    if attempt ≤ maxRetries then
      match fn attempt with
      | .ok v => (.ok v, sleeps)
      | .error e =>
        if attempt + 1 > maxRetries then (.error e, sleeps)
        else if aborted then (.error "Operation aborted", sleeps)
        else withRetryGo maxRetries backoffFactor aborted fn (attempt + 1)
          (delay * backoffFactor) (sleeps ++ [delay])
    else (.error "Failed after retries", sleeps)
  termination_by attempt _ _ => maxRetries + 1 - attempt
  decreasing_by omega

/-- `EmbeddingService.withRetry(fn)`: runs the retry loop from attempt 0 with
the configured initial delay; the second component is the list of slept
delays. -/
def EmbeddingService.withRetry (svc : EmbeddingService) {α : Type}
    (fn : Nat → Except String α) : Except String α × List Nat :=
  withRetryGo svc.maxRetries svc.backoffFactor svc.aborted fn 0
    svc.initialDelayMs []

/-- `EmbeddingService.generateEmbedding(text)`: trims the text, rejects an
empty result, then calls the provider under the retry policy. -/
def EmbeddingService.generateEmbedding (svc : EmbeddingService)
    (text : String) : Except String (List Int) × List Nat :=
  let normalizedText := jsTrim text
  if normalizedText = "" then (.error "Text cannot be empty", [])
  else svc.withRetry (fun attempt => svc.provider attempt normalizedText)

/-- `EmbeddingService.generateQueryEmbedding(query)`: convenience alias for
`generateEmbedding`. -/
def EmbeddingService.generateQueryEmbedding (svc : EmbeddingService)
    (query : String) : Except String (List Int) × List Nat :=
  svc.generateEmbedding query

/-! ## Memory orchestration layer (`MemoryStorage`, `src/memory/storage.ts`)

A `MemoryStorage` instance is an adapter (the row list, passed explicitly)
plus an optional embedding service.  `(svc.generateEmbedding c).1` is the
raised-or-returned value of an `await`; the slept delays are irrelevant at
this layer. -/

/-- `MemoryStorage.createMemory(memory, { autoGenerateEmbedding })`: if no
embedding is supplied, auto-generation is enabled and a service is
configured, generate the embedding from the content first (a provider error
propagates as a raised error); then delegate to the adapter. -/
def storageCreateMemory (svc : Option EmbeddingService) (st : Store)
    (entityId content : String) (embedding : Option (List Int))
    (outgoingEdges : List String) (autoGenerateEmbedding : Bool := true) :
    Except String (Memory × Store) :=
  match embedding, autoGenerateEmbedding, svc with
  | none, true, some s =>
    match (s.generateEmbedding content).1 with
    | .error e => .error e
    | .ok v => .ok (adapterCreateMemory st entityId content (some v)
        outgoingEdges)
  | emb, _, _ => .ok (adapterCreateMemory st entityId content emb
      outgoingEdges)

/-- `MemoryStorage.updateMemory(memoryId, updates)`: when `updates.content`
is truthy (supplied and non-empty), a service is configured and
`updates.embedding` is not supplied, regenerate the embedding from the new
content before delegating to the adapter. -/
def storageUpdateMemory (svc : Option EmbeddingService) (st : Store)
    (memoryId : String) (u : MemoryUpdates) : Except String (Memory × Store) :=
  match u.content, u.embedding, svc with
  | some c, none, some s =>
    if c = "" then adapterUpdateMemory st memoryId u
    else
      match (s.generateEmbedding c).1 with
      | .error e => .error e
      | .ok v => adapterUpdateMemory st memoryId { u with embedding := some v }
  | _, _, _ => adapterUpdateMemory st memoryId u

/-- A `searchByQuery` argument: TypeScript's `string | number[]`. -/
inductive SearchQuery where
  | text (q : String)
  | vector (v : List Int)
deriving DecidableEq, Repr

/-- `MemoryStorage.searchByQuery(query, entityId, limit, threshold)`: a text
query requires a configured embedding service (raising a configuration error
before anything else happens), a vector query is delegated directly.  The
adapter's `searchByVector` is an explicit collaborator parameter, so that
independence from it expresses "never invoked". -/
def storageSearchByQuery (svc : Option EmbeddingService)
    (adapterSearch : List Int → String → Nat → Rat → List Memory)
    (query : SearchQuery) (entityId : String) (limit : Nat := 10)
    (threshold : Rat := 0.7) : Except String (List Memory) :=
  match query with
  | .text q =>
    match svc with
    | none => .error ("EmbeddingService is required for text query search. " ++
        "Provide embeddingService when initializing MemoryStorage.")
    | some s =>
      match (s.generateQueryEmbedding q).1 with
      | .error e => .error e
      | .ok v => .ok (adapterSearch v entityId limit threshold)
  | .vector v => .ok (adapterSearch v entityId limit threshold)

/-! ## Mutation invariant handler (`MemoryToolHandler`,
`src/memory/tool-handler.ts`)

Each handler returns the `ToolHandlerResult` together with the storage state
after the call; the source's `try/catch` envelope is reflected by every
`Except.error` of a storage or embedding call being turned into a
`success: false` result. -/

/-- `ToolHandlerResult<T>`: tagged success/failure record. -/
structure ToolHandlerResult (α : Type) where
  success : Bool
  data : Option α := none
  error : Option String := none
deriving DecidableEq, Repr

/-- Failure result (`{ success: false, error }`). -/
def ToolHandlerResult.failed {α : Type} (e : String) : ToolHandlerResult α :=
  { success := false, error := some e }

/-- Success result (`{ success: true, data }`). -/
def ToolHandlerResult.ok {α : Type} (d : α) : ToolHandlerResult α :=
  { success := true, data := some d }

/-- `CreateMemoryParams` (`relatedMemoryIds` defaults to `[]`, matching
`params.relatedMemoryIds || []`). -/
structure CreateMemoryParams where
  content : String
  entityId : String
  relatedMemoryIds : List String := []
deriving DecidableEq, Repr

/-- `UpdateMemoryParams`. -/
structure UpdateMemoryParams where
  memoryId : String
  content : String
deriving DecidableEq, Repr

/-- `UpdateMemoryLinkParams`; `action` is kept as a raw string because the
handler re-validates it at runtime. -/
structure UpdateMemoryLinkParams where
  fromMemoryId : String
  toMemoryId : String
  action : String
deriving DecidableEq, Repr

/-- `DeleteMemoryParams`. -/
structure DeleteMemoryParams where
  memoryId : String
deriving DecidableEq, Repr

/-- The related-ids validation loop of `handleCreateMemory`: each related id
must exist and belong to the requested entity; the first violation produces
the error message returned to the caller. -/
def validateRelated (st : Store) (entityId : String) :
    List String → Option String
  | [] => none
  | relatedId :: rest =>
    match getMemory st relatedId with
    | none => some ("Related memory with UUID " ++ relatedId ++ " not found")
    | some relatedMemory =>
      if relatedMemory.entityId ≠ entityId then
        some ("Related memory " ++ relatedId ++ " belongs to a different entity")
      else validateRelated st entityId rest

/-- The back-linking loop of `handleCreateMemory` (the `Promise.all` over
`relatedMemoryIds`, sequentialised): re-read each related node and append the
new node's id to its `outgoingEdges` if not already present.  The underlying
`updateOutgoingEdges` cannot raise here because the row was just read, so
only its state effect (`updateRows`) appears. -/
def linkRelated (newId : String) : Store → List String → Store
  | st, [] => st
  | st, relatedId :: rest =>
    let st' :=
      match getMemory st relatedId with
      | none => st
      | some relatedMemory =>
        if newId ∈ relatedMemory.outgoingEdges then st
        else updateRows st relatedId
          { outgoingEdges := some (relatedMemory.outgoingEdges ++ [newId]) }
    linkRelated newId st' rest

/-- `MemoryToolHandler.handleCreateMemory`: validates content, entity id and
related ids, creates the node via the orchestration layer with automatic
embedding generation, then adds the back-references. -/
def handleCreateMemory (svc : Option EmbeddingService) (st : Store)
    (params : CreateMemoryParams) : ToolHandlerResult Memory × Store :=
  if params.content = "" ∨ jsTrim params.content = "" then
    (.failed "Memory content is required and cannot be empty", st)
  else if params.entityId = "" ∨ jsTrim params.entityId = "" then
    (.failed "Entity ID is required", st)
  else
    match validateRelated st params.entityId params.relatedMemoryIds with
    | some e => (.failed e, st)
    | none =>
      match storageCreateMemory svc st params.entityId (jsTrim params.content)
          none params.relatedMemoryIds true with
      | .error e => (.failed e, st)
      | .ok (memory, st1) =>
        (.ok memory, linkRelated memory.id st1 params.relatedMemoryIds)

/-- `MemoryToolHandler.handleUpdateMemory`: validates the id and content,
checks existence, then delegates to the orchestration layer (which
regenerates the embedding). -/
def handleUpdateMemory (svc : Option EmbeddingService) (st : Store)
    (params : UpdateMemoryParams) : ToolHandlerResult Memory × Store :=
  if params.memoryId = "" ∨ jsTrim params.memoryId = "" then
    (.failed "Memory UUID is required", st)
  else if params.content = "" ∨ jsTrim params.content = "" then
    (.failed "Memory content is required and cannot be empty", st)
  else
    match getMemory st params.memoryId with
    | none =>
      (.failed ("Memory with UUID " ++ params.memoryId ++ " not found"), st)
    | some _ =>
      match storageUpdateMemory svc st params.memoryId
          { content := some (jsTrim params.content) } with
      | .error e => (.failed e, st)
      | .ok (updatedMemory, st') => (.ok updatedMemory, st')

/-- `MemoryToolHandler.handleUpdateMemoryLink`: validates both ids, rejects
self-links and invalid actions, requires both nodes to exist in the same
entity; `add` fails on an existing edge, `remove` fails on a missing edge;
otherwise the source node's edge list is rewritten. -/
def handleUpdateMemoryLink (st : Store) (params : UpdateMemoryLinkParams) :
    ToolHandlerResult Memory × Store :=
  if params.fromMemoryId = "" ∨ jsTrim params.fromMemoryId = "" then
    (.failed "From memory UUID is required", st)
  else if params.toMemoryId = "" ∨ jsTrim params.toMemoryId = "" then
    (.failed "To memory UUID is required", st)
  else if params.fromMemoryId = params.toMemoryId then
    (.failed "Cannot link memory to itself", st)
  else if params.action ≠ "add" ∧ params.action ≠ "remove" then
    (.failed "Action must be either 'add' or 'remove'", st)
  else
    match getMemory st params.fromMemoryId with
    | none =>
      (.failed ("Memory with UUID " ++ params.fromMemoryId ++ " not found"), st)
    | some fromMemory =>
      match getMemory st params.toMemoryId with
      | none =>
        (.failed ("Memory with UUID " ++ params.toMemoryId ++ " not found"), st)
      | some toMemory =>
        if fromMemory.entityId ≠ toMemory.entityId then
          (.failed "Cannot link memories from different entities", st)
        else if params.action = "add" then
          if params.toMemoryId ∈ fromMemory.outgoingEdges then
            (.failed "Link already exists", st)
          else
            match adapterUpdateMemory st params.fromMemoryId
                { outgoingEdges :=
                    some (fromMemory.outgoingEdges ++ [params.toMemoryId]) } with
            | .error e => (.failed e, st)
            | .ok (updatedMemory, st') => (.ok updatedMemory, st')
        else
          if params.toMemoryId ∉ fromMemory.outgoingEdges then
            (.failed "Link does not exist", st)
          else
            match adapterUpdateMemory st params.fromMemoryId
                { outgoingEdges :=
                    some (fromMemory.outgoingEdges.erase params.toMemoryId) } with
            | .error e => (.failed e, st)
            | .ok (updatedMemory, st') => (.ok updatedMemory, st')

/-- The cleanup loop of `handleDeleteMemory` (the `Promise.all`,
sequentialised): each node of the snapshot gets its edge list rewritten with
the deleted id filtered out. -/
def deleteCleanup (memoryId : String) : Store → List Memory → Store
  | st, [] => st
  | st, m :: rest =>
    deleteCleanup memoryId
      (updateRows st m.id
        { outgoingEdges :=
            some (m.outgoingEdges.filter (fun id => id ≠ memoryId)) })
      rest

/-- `MemoryToolHandler.handleDeleteMemory`: validates the id, checks
existence, removes the dangling edges from every same-entity node whose
`outgoingEdges` contain the id, then deletes the node itself. -/
def handleDeleteMemory (st : Store) (params : DeleteMemoryParams) :
    ToolHandlerResult Unit × Store :=
  if params.memoryId = "" ∨ jsTrim params.memoryId = "" then
    (.failed "Memory UUID is required", st)
  else
    match getMemory st params.memoryId with
    | none =>
      (.failed ("Memory with UUID " ++ params.memoryId ++ " not found"), st)
    | some memory =>
      let allMemories := getMemoriesByEntity st memory.entityId
      let memoriesToUpdate :=
        allMemories.filter (fun m => params.memoryId ∈ m.outgoingEdges)
      let st' := deleteCleanup params.memoryId st memoriesToUpdate
      let deleted := adapterDeleteMemory st' params.memoryId
      if deleted.1 then ({ success := true }, deleted.2)
      else (.failed "Failed to delete memory", deleted.2)

/-! ## Shared lemmas about the row operations -/

/-- `applyUpdates` never changes a row's id. -/
theorem applyUpdates_id (u : MemoryUpdates) (m : Memory) :
    (applyUpdates u m).id = m.id := rfl

/-- `applyUpdates` never changes a row's entity id. -/
theorem applyUpdates_entityId (u : MemoryUpdates) (m : Memory) :
    (applyUpdates u m).entityId = m.entityId := rfl

/-- Looking a row up after an `UPDATE … WHERE id` rewrites only a matching
row. -/
theorem getMemory_updateRows (st : Store) (i : String) (u : MemoryUpdates)
    (x : String) :
    getMemory (updateRows st i u) x =
      (getMemory st x).map (fun m => if m.id == i then applyUpdates u m else m) := by
  unfold getMemory updateRows
  rw [List.find?_map]
  have hp : ((fun m : Memory => m.id == x) ∘
      fun m => if m.id == i then applyUpdates u m else m) =
      (fun m : Memory => m.id == x) := by
    funext m
    by_cases h : m.id == i
    · simp [Function.comp, h, applyUpdates_id]
    · simp [Function.comp, h]
  rw [hp]

/-- A row id present in the store is never the fresh id of a successful
lookup. -/
theorem getMemory_ne_freshId {st : Store} {i : String} {m : Memory}
    (h : getMemory st i = some m) : i ≠ freshId st := by
  have hid := getMemory_eq_id h
  have := freshId_not_mem (getMemory_mem h)
  intro hc
  exact this (hid.symm ▸ hc ▸ rfl)

/-- Lookup distributes over append: a hit in the first part wins. -/
theorem getMemory_append_left {st : Store} {i : String} {m : Memory}
    (h : getMemory st i = some m) (l : Store) :
    getMemory (st ++ l) i = some m := by
  unfold getMemory at *
  rw [List.find?_append, h]
  rfl

/-- A lookup of an id no row carries fails. -/
theorem getMemory_eq_none {st : Store} {i : String}
    (h : ∀ m ∈ st, m.id ≠ i) : getMemory st i = none := by
  unfold getMemory
  rw [List.find?_eq_none]
  intro m hm
  simpa using h m hm

/-! ## C7: text search without an embedding service -/

/-- **C7.** A text query with no embedding service configured fails with the
configuration error, and does so identically for every possible behaviour of
the adapter's `searchByVector` — the adapter is never consulted.  A vector
query is delegated directly to the adapter, service or not. -/
theorem searchByQuery_config_spec :
    (∀ (f : List Int → String → Nat → Rat → List Memory) (q entityId : String)
        (limit : Nat) (threshold : Rat),
        storageSearchByQuery none f (.text q) entityId limit threshold =
          .error ("EmbeddingService is required for text query search. " ++
            "Provide embeddingService when initializing MemoryStorage.")) ∧
    (∀ (f g : List Int → String → Nat → Rat → List Memory) (q entityId : String)
        (limit : Nat) (threshold : Rat),
        storageSearchByQuery none f (.text q) entityId limit threshold =
          storageSearchByQuery none g (.text q) entityId limit threshold) ∧
    (∀ (svc : Option EmbeddingService)
        (f : List Int → String → Nat → Rat → List Memory) (v : List Int)
        (entityId : String) (limit : Nat) (threshold : Rat),
        storageSearchByQuery svc f (.vector v) entityId limit threshold =
          .ok (f v entityId limit threshold)) := by
  refine ⟨fun f q e l t => rfl, fun f g q e l t => rfl, fun svc f v e l t => rfl⟩

/-! ## C5: the handlers never raise -/

/-- **C5.** Each of the four `MemoryToolHandler` operations, for every input,
every storage state and every behaviour of the embedding provider (including
one that fails on every attempt), resolves to a tagged
`{success, data?, error?}` record: a success carries no error and a failure
carries an error message — nothing is thrown past the handler boundary. -/
theorem toolHandler_never_raises :
    (∀ (svc : Option EmbeddingService) (st : Store) (p : CreateMemoryParams),
        ((handleCreateMemory svc st p).1.success = true ∧
          (handleCreateMemory svc st p).1.error = none) ∨
        ((handleCreateMemory svc st p).1.success = false ∧
          (handleCreateMemory svc st p).1.error.isSome)) ∧
    (∀ (svc : Option EmbeddingService) (st : Store) (p : UpdateMemoryParams),
        ((handleUpdateMemory svc st p).1.success = true ∧
          (handleUpdateMemory svc st p).1.error = none) ∨
        ((handleUpdateMemory svc st p).1.success = false ∧
          (handleUpdateMemory svc st p).1.error.isSome)) ∧
    (∀ (st : Store) (p : UpdateMemoryLinkParams),
        ((handleUpdateMemoryLink st p).1.success = true ∧
          (handleUpdateMemoryLink st p).1.error = none) ∨
        ((handleUpdateMemoryLink st p).1.success = false ∧
          (handleUpdateMemoryLink st p).1.error.isSome)) ∧
    (∀ (st : Store) (p : DeleteMemoryParams),
        ((handleDeleteMemory st p).1.success = true ∧
          (handleDeleteMemory st p).1.error = none) ∨
        ((handleDeleteMemory st p).1.success = false ∧
          (handleDeleteMemory st p).1.error.isSome)) := by
  refine ⟨?_, ?_, ?_, ?_⟩
  · intro svc st p
    unfold handleCreateMemory
    repeat' split
    all_goals simp [ToolHandlerResult.failed, ToolHandlerResult.ok]
  · intro svc st p
    unfold handleUpdateMemory
    repeat' split
    all_goals simp [ToolHandlerResult.failed, ToolHandlerResult.ok]
  · intro st p
    unfold handleUpdateMemoryLink
    repeat' split
    all_goals simp [ToolHandlerResult.failed, ToolHandlerResult.ok]
  · intro st p
    unfold handleDeleteMemory
    split
    · simp [ToolHandlerResult.failed]
    · split
      · simp [ToolHandlerResult.failed]
      · dsimp only
        split
        · simp
        · simp [ToolHandlerResult.failed]

/-! ## C4: strict add/remove link semantics -/

/-- **C4.** For distinct existing nodes `x`, `y` of the same entity:
`add` on an existing edge fails with `Link already exists` (so `add` twice is
success then that failure — not an idempotent no-op), `remove` on a missing
edge fails with `Link does not exist`; a successful `add` appends `y` to
`x`'s `outgoingEdges` and a successful `remove` deletes it (first
occurrence, as `splice` does). -/
theorem updateMemoryLink_strict_spec (st : Store) (x y : String)
    (f t : Memory)
    (hx : jsTrim x ≠ "") (hy : jsTrim y ≠ "") (hxy : x ≠ y)
    (hf : getMemory st x = some f) (ht : getMemory st y = some t)
    (hent : f.entityId = t.entityId) :
    (y ∈ f.outgoingEdges →
      handleUpdateMemoryLink st ⟨x, y, "add"⟩ =
        (.failed "Link already exists", st)) ∧
    (y ∉ f.outgoingEdges →
      handleUpdateMemoryLink st ⟨x, y, "remove"⟩ =
        (.failed "Link does not exist", st)) ∧
    (y ∉ f.outgoingEdges →
      handleUpdateMemoryLink st ⟨x, y, "add"⟩ =
        (.ok { f with outgoingEdges := f.outgoingEdges ++ [y] },
         updateRows st x
           { outgoingEdges := some (f.outgoingEdges ++ [y]) }) ∧
      getMemory (handleUpdateMemoryLink st ⟨x, y, "add"⟩).2 x =
        some { f with outgoingEdges := f.outgoingEdges ++ [y] }) ∧
    (y ∈ f.outgoingEdges →
      handleUpdateMemoryLink st ⟨x, y, "remove"⟩ =
        (.ok { f with outgoingEdges := f.outgoingEdges.erase y },
         updateRows st x
           { outgoingEdges := some (f.outgoingEdges.erase y) }) ∧
      getMemory (handleUpdateMemoryLink st ⟨x, y, "remove"⟩).2 x =
        some { f with outgoingEdges := f.outgoingEdges.erase y }) ∧
    (y ∉ f.outgoingEdges →
      (handleUpdateMemoryLink
          (handleUpdateMemoryLink st ⟨x, y, "add"⟩).2 ⟨x, y, "add"⟩).1 =
        .failed "Link already exists") := by
  have hxe : ¬(x = "" ∨ jsTrim x = "") := by
    rintro (h | h)
    · apply hx
      rw [h]
      decide
    · exact hx h
  have hye : ¬(y = "" ∨ jsTrim y = "") := by
    rintro (h | h)
    · apply hy
      rw [h]
      decide
    · exact hy h
  have hfid : f.id = x := getMemory_eq_id hf
  have htid : t.id = y := getMemory_eq_id ht
  have hadd : ∀ (st' : Store) (f' t' : Memory), getMemory st' x = some f' →
      getMemory st' y = some t' → f'.entityId = t'.entityId →
      handleUpdateMemoryLink st' ⟨x, y, "add"⟩ =
        (if y ∈ f'.outgoingEdges then (.failed "Link already exists", st')
         else
          (.ok (applyUpdates
              { outgoingEdges := some (f'.outgoingEdges ++ [y]) } f'),
           updateRows st' x
             { outgoingEdges := some (f'.outgoingEdges ++ [y]) })) := by
    intro st' f' t' hf' ht' hent'
    unfold handleUpdateMemoryLink
    dsimp only
    rw [if_neg hxe, if_neg hye, if_neg hxy, if_neg (by simp), hf', ht']
    simp only [hent', ne_eq, not_true_eq_false, if_false, ite_false,
      eq_self_iff_true, ite_true]
    by_cases hmem : y ∈ f'.outgoingEdges
    · rw [if_pos hmem, if_pos hmem]
    · rw [if_neg hmem, if_neg hmem]
      simp [adapterUpdateMemory, hf']
  have hrem : ∀ (st' : Store) (f' t' : Memory), getMemory st' x = some f' →
      getMemory st' y = some t' → f'.entityId = t'.entityId →
      handleUpdateMemoryLink st' ⟨x, y, "remove"⟩ =
        (if y ∈ f'.outgoingEdges then
          (.ok (applyUpdates
              { outgoingEdges := some (f'.outgoingEdges.erase y) } f'),
           updateRows st' x
             { outgoingEdges := some (f'.outgoingEdges.erase y) })
         else (.failed "Link does not exist", st')) := by
    intro st' f' t' hf' ht' hent'
    unfold handleUpdateMemoryLink
    dsimp only
    rw [if_neg hxe, if_neg hye, if_neg hxy, if_neg (by simp),
      hf', ht']
    simp only [hent', ne_eq, not_true_eq_false, if_false, ite_false]
    rw [if_neg (by decide : ¬("remove" : String) = "add")]
    by_cases hmem : y ∈ f'.outgoingEdges
    · rw [if_neg (by simpa using hmem), if_pos hmem]
      simp [adapterUpdateMemory, hf']
    · rw [if_pos (by simpa using hmem), if_neg hmem]
  have happly : ∀ (L : List String) (f' : Memory),
      applyUpdates { outgoingEdges := some L } f' =
        { f' with outgoingEdges := L } := by
    intro L f'
    simp [applyUpdates]
  refine ⟨?_, ?_, ?_, ?_, ?_⟩
  · intro hmem
    rw [hadd st f t hf ht hent, if_pos hmem]
  · intro hmem
    rw [hrem st f t hf ht hent, if_neg hmem]
  · intro hmem
    rw [hadd st f t hf ht hent, if_neg hmem, happly]
    refine ⟨rfl, ?_⟩
    rw [getMemory_updateRows, hf]
    simp [hfid, happly]
  · intro hmem
    rw [hrem st f t hf ht hent, if_pos hmem, happly]
    refine ⟨rfl, ?_⟩
    rw [getMemory_updateRows, hf]
    simp [hfid, happly]
  · intro hmem
    rw [hadd st f t hf ht hent, if_neg hmem, happly]
    have hf2 : getMemory (updateRows st x
        { outgoingEdges := some (f.outgoingEdges ++ [y]) }) x =
        some { f with outgoingEdges := f.outgoingEdges ++ [y] } := by
      rw [getMemory_updateRows, hf]
      simp [hfid, happly]
    have ht2 : getMemory (updateRows st x
        { outgoingEdges := some (f.outgoingEdges ++ [y]) }) y =
        some t := by
      rw [getMemory_updateRows, ht]
      have hne : ¬t.id = x := by
        rw [htid]
        exact fun hc => hxy hc.symm
      simp [hne]
    rw [hadd _ _ t hf2 ht2 hent]
    rw [if_pos (by simp)]

/-- Two-node store used to witness the link-handler claims. -/
def linkWitnessStore : Store :=
  [{ id := "x", entityId := "e", content := "xc" },
   { id := "y", entityId := "e", content := "yc" }]

theorem updateMemoryLink_strict_spec_witness :
    handleUpdateMemoryLink linkWitnessStore ⟨"x", "y", "remove"⟩ =
      (.failed "Link does not exist", linkWitnessStore) ∧
    (handleUpdateMemoryLink
        (handleUpdateMemoryLink linkWitnessStore ⟨"x", "y", "add"⟩).2
        ⟨"x", "y", "add"⟩).1 = .failed "Link already exists" := by
  have h := updateMemoryLink_strict_spec linkWitnessStore "x" "y"
    { id := "x", entityId := "e", content := "xc" }
    { id := "y", entityId := "e", content := "yc" }
    (by decide) (by decide) (by decide) (by decide) (by decide) rfl
  exact ⟨h.2.1 (by decide), h.2.2.2.2 (by decide)⟩

/-! ## C10: failed calls leave the store untouched -/

/-- `UPDATE … WHERE id` does not change the stored ids. -/
theorem updateRows_map_id (st : Store) (i : String) (u : MemoryUpdates) :
    (updateRows st i u).map (fun m => m.id) = st.map (fun m => m.id) := by
  unfold updateRows
  rw [List.map_map]
  congr 1
  funext m
  by_cases h : m.id == i
  · simp [Function.comp, h, applyUpdates_id]
  · simp [Function.comp, h]

/-- The cascading-delete cleanup does not change the stored ids. -/
theorem deleteCleanup_map_id (i : String) (L : List Memory) :
    ∀ st : Store,
      (deleteCleanup i st L).map (fun m => m.id) = st.map (fun m => m.id) := by
  induction L with
  | nil => intro st; rfl
  | cons m L ih =>
    intro st
    rw [deleteCleanup, ih, updateRows_map_id]

/-- A stored row survives the cleanup sweep, so the final `DELETE` always
removes it. -/
theorem deleteCleanup_any_id {st : Store} {i : String} {m0 : Memory}
    (h : getMemory st i = some m0) (L : List Memory) :
    (deleteCleanup i st L).any (fun m => m.id == i) = true := by
  have hmap := deleteCleanup_map_id i L st
  rw [List.any_eq_true]
  have hid : m0.id = i := getMemory_eq_id h
  have hmem : m0.id ∈ (deleteCleanup i st L).map (fun m => m.id) := by
    rw [hmap]
    exact List.mem_map_of_mem _ (getMemory_mem h)
  rcases List.mem_map.mp hmem with ⟨r, hr, hrid⟩
  exact ⟨r, hr, by simp [hrid, hid]⟩

/-- **C10.** Whenever one of the four handlers reports `success: false`, the
storage state after the call is exactly the state before it: every
validation read precedes the first write, provider failures occur before the
adapter is asked to write, and a successful path never reports failure. -/
theorem failed_call_leaves_store_unchanged :
    (∀ (svc : Option EmbeddingService) (st : Store) (p : CreateMemoryParams),
        (handleCreateMemory svc st p).1.success = false →
        (handleCreateMemory svc st p).2 = st) ∧
    (∀ (svc : Option EmbeddingService) (st : Store) (p : UpdateMemoryParams),
        (handleUpdateMemory svc st p).1.success = false →
        (handleUpdateMemory svc st p).2 = st) ∧
    (∀ (st : Store) (p : UpdateMemoryLinkParams),
        (handleUpdateMemoryLink st p).1.success = false →
        (handleUpdateMemoryLink st p).2 = st) ∧
    (∀ (st : Store) (p : DeleteMemoryParams),
        (handleDeleteMemory st p).1.success = false →
        (handleDeleteMemory st p).2 = st) := by
  refine ⟨?_, ?_, ?_, ?_⟩
  · intro svc st p
    unfold handleCreateMemory
    repeat' split
    all_goals simp [ToolHandlerResult.failed, ToolHandlerResult.ok]
  · intro svc st p
    unfold handleUpdateMemory
    repeat' split
    all_goals simp [ToolHandlerResult.failed, ToolHandlerResult.ok]
  · intro st p
    unfold handleUpdateMemoryLink
    repeat' split
    all_goals simp [ToolHandlerResult.failed, ToolHandlerResult.ok]
  · intro st p
    unfold handleDeleteMemory
    split
    · simp [ToolHandlerResult.failed]
    · split
      · simp [ToolHandlerResult.failed]
      · rename_i memory hsome
        dsimp only
        split
        · simp
        · rename_i hdel
          exfalso
          apply hdel
          unfold adapterDeleteMemory
          exact deleteCleanup_any_id hsome _

theorem failed_call_leaves_store_unchanged_witness :
    (handleDeleteMemory [] { memoryId := "z" }).2 = ([] : Store) :=
  failed_call_leaves_store_unchanged.2.2.2 [] { memoryId := "z" } (by decide)

/-! ## C8: content updates regenerate the embedding -/

/-- **C8.** When `updates.content` is supplied (and non-empty, i.e. truthy)
and `updates.embedding` is not, with an embedding service configured whose
generation succeeds with vector `v`, `MemoryStorage.updateMemory` delegates
to the adapter an update carrying `embedding = v` regenerated from the new
content: the stored row ends with embedding `v` (in particular the stored
value changes whenever `v` differs from the previous embedding). -/
theorem updateMemory_regenerates_embedding (s : EmbeddingService) (st : Store)
    (memoryId : String) (u : MemoryUpdates) (c : String) (v : List Int)
    (m : Memory)
    (hc : u.content = some c) (hcne : c ≠ "") (hemb : u.embedding = none)
    (hgen : (s.generateEmbedding c).1 = .ok v)
    (hm : getMemory st memoryId = some m) :
    storageUpdateMemory (some s) st memoryId u =
      .ok (applyUpdates { u with embedding := some v } m,
           updateRows st memoryId { u with embedding := some v }) ∧
    (applyUpdates { u with embedding := some v } m).embedding = some v ∧
    getMemory (updateRows st memoryId { u with embedding := some v })
        memoryId =
      some (applyUpdates { u with embedding := some v } m) ∧
    (m.embedding ≠ some v →
      (applyUpdates { u with embedding := some v } m).embedding ≠
        m.embedding) := by
  have hmain : storageUpdateMemory (some s) st memoryId u =
      adapterUpdateMemory st memoryId { u with embedding := some v } := by
    unfold storageUpdateMemory
    rw [hc, hemb]
    dsimp only
    rw [if_neg hcne, hgen]
  have hadapter : adapterUpdateMemory st memoryId { u with embedding := some v } =
      .ok (applyUpdates { u with embedding := some v } m,
           updateRows st memoryId { u with embedding := some v }) := by
    unfold adapterUpdateMemory
    rw [hm]
  refine ⟨by rw [hmain, hadapter], rfl, ?_, ?_⟩
  · rw [getMemory_updateRows, hm]
    simp [getMemory_eq_id hm]
  · intro h
    exact fun hc' => h (hc'.symm)

/-- Always-succeeding embedding provider used in witnesses. -/
def okService : EmbeddingService := { provider := fun _ _ => .ok [1] }

/-- One-row store used by the update-regeneration witness. -/
def updWitnessStore : Store :=
  [{ id := "n", entityId := "e", content := "old", embedding := some [9] }]

theorem updateMemory_regenerates_embedding_witness :
    storageUpdateMemory (some okService) updWitnessStore "n"
        { content := some "new" } =
      .ok (applyUpdates { content := some "new", embedding := some [1] }
             { id := "n", entityId := "e", content := "old",
               embedding := some [9] },
           updateRows updWitnessStore "n"
             { content := some "new", embedding := some [1] }) :=
  (updateMemory_regenerates_embedding okService updWitnessStore "n"
    { content := some "new" } "new" [1]
    { id := "n", entityId := "e", content := "old", embedding := some [9] }
    rfl (by decide) rfl
    (by simp [EmbeddingService.generateEmbedding, EmbeddingService.withRetry,
      okService, withRetryGo, jsTrim])
    (by decide)).1

/-! ## C6: retry with exponential backoff -/

theorem withRetryGo_ok (maxR bf : Nat) {α : Type}
    (fn : Nat → Except String α) :
    ∀ (k attempt delay : Nat) (sleeps : List Nat) (v : α),
      attempt + k ≤ maxR →
      (∀ i, i < k → ∃ e, fn (attempt + i) = .error e) →
      fn (attempt + k) = .ok v →
      withRetryGo maxR bf false fn attempt delay sleeps =
        (.ok v, sleeps ++ (List.range k).map (fun i => delay * bf ^ i)) := by
  intro k
  induction k with
  | zero =>
    intro attempt delay sleeps v hle hfail hok
    rw [Nat.add_zero] at hok
    rw [withRetryGo, if_pos (show attempt ≤ maxR by omega), hok]
    simp
  | succ k ih =>
    intro attempt delay sleeps v hle hfail hok
    obtain ⟨e, he⟩ := hfail 0 (by omega)
    rw [Nat.add_zero] at he
    rw [withRetryGo, if_pos (show attempt ≤ maxR by omega), he]
    dsimp only
    rw [if_neg (show ¬attempt + 1 > maxR by omega),
      if_neg (show ¬(false = true) by simp)]
    have hrec := ih (attempt + 1) (delay * bf) (sleeps ++ [delay]) v
      (by omega)
      (fun i hi => by
        have := hfail (i + 1) (by omega)
        rwa [show attempt + (i + 1) = attempt + 1 + i by omega] at this)
      (by rwa [show attempt + 1 + k = attempt + (k + 1) by omega])
    rw [hrec, List.append_assoc, List.range_succ_eq_map, List.map_cons,
      List.map_map]
    have hfun : ((fun i => delay * bf ^ i) ∘ Nat.succ) =
        (fun i => delay * bf * bf ^ i) := by
      funext i
      simp only [Function.comp_apply, pow_succ]
      ring
    rw [hfun]
    simp

theorem withRetryGo_all_fail (maxR bf : Nat) {α : Type}
    (fn : Nat → Except String α) (E : Nat → String)
    (hE : ∀ i, i ≤ maxR → fn i = .error (E i)) :
    ∀ (k attempt delay : Nat) (sleeps : List Nat),
      maxR - attempt = k → attempt ≤ maxR →
      withRetryGo maxR bf false fn attempt delay sleeps =
        (.error (E maxR),
         sleeps ++ (List.range k).map (fun i => delay * bf ^ i)) := by
  intro k
  induction k with
  | zero =>
    intro attempt delay sleeps hk hle
    have hattempt : attempt = maxR := by omega
    rw [withRetryGo, if_pos hle, hE attempt (by omega)]
    dsimp only
    rw [if_pos (show attempt + 1 > maxR by omega), hattempt]
    simp
  | succ k ih =>
    intro attempt delay sleeps hk hle
    have hlt : attempt < maxR := by omega
    rw [withRetryGo, if_pos (show attempt ≤ maxR by omega),
      hE attempt (by omega)]
    dsimp only
    rw [if_neg (show ¬attempt + 1 > maxR by omega),
      if_neg (show ¬(false = true) by simp)]
    rw [ih (attempt + 1) (delay * bf) (sleeps ++ [delay]) (by omega) (by omega)]
    rw [List.append_assoc, List.range_succ_eq_map, List.map_cons,
      List.map_map]
    have hfun : ((fun i => delay * bf ^ i) ∘ Nat.succ) =
        (fun i => delay * bf * bf ^ i) := by
      funext i
      simp only [Function.comp_apply, pow_succ]
      ring
    rw [hfun]
    simp

theorem withRetryGo_congr (maxR bf : Nat) (ab : Bool) {α : Type}
    (fn gn : Nat → Except String α) (h : ∀ i, i ≤ maxR → fn i = gn i) :
    ∀ (F attempt delay : Nat) (sleeps : List Nat),
      maxR + 1 - attempt ≤ F →
      withRetryGo maxR bf ab fn attempt delay sleeps =
        withRetryGo maxR bf ab gn attempt delay sleeps := by
  intro F
  induction F with
  | zero =>
    intro attempt delay sleeps hF
    rw [withRetryGo]
    conv_rhs => rw [withRetryGo]
    rw [if_neg (show ¬attempt ≤ maxR by omega),
      if_neg (show ¬attempt ≤ maxR by omega)]
  | succ F ih =>
    intro attempt delay sleeps hF
    by_cases hat : attempt ≤ maxR
    · rw [withRetryGo]
      conv_rhs => rw [withRetryGo]
      rw [if_pos hat, if_pos hat, h attempt hat]
      cases hg : gn attempt with
      | ok v => rfl
      | error e =>
        dsimp only
        by_cases hlast : attempt + 1 > maxR
        · rw [if_pos hlast, if_pos hlast]
        · rw [if_neg hlast, if_neg hlast]
          cases ab with
          | true => rfl
          | false =>
            rw [if_neg (show ¬(false = true) by simp),
              if_neg (show ¬(false = true) by simp)]
            exact ih (attempt + 1) (delay * bf) (sleeps ++ [delay]) (by omega)
    · rw [withRetryGo]
      conv_rhs => rw [withRetryGo]
      rw [if_neg hat, if_neg hat]

/-- **C6.** `generateEmbedding` with `maxRetries = 3` under a provider that
fails on the first two attempts and succeeds on the third returns the
third attempt's vector after exactly two sleeps of `initialDelayMs` and
`initialDelayMs * backoffFactor`.  In general (via the retry loop
`withRetryGo` underlying `EmbeddingService.withRetry`): success at attempt
`k ≤ maxRetries` yields the delay sequence
`initialDelayMs * backoffFactor ^ i` for `i < k`; if every allowed attempt
fails, the last provider error (attempt `maxRetries`) is re-raised after
`maxRetries` sleeps; and the outcome only depends on the provider's
behaviour on attempts `0 … maxRetries`, i.e. it is called at most
`maxRetries + 1` times. -/
theorem embedding_retry_backoff_spec :
    (∀ (p : Nat → String → Except String (List Int)) (text : String)
        (d0 bf : Nat) (v : List Int) (e0 e1 : String),
        jsTrim text ≠ "" →
        p 0 (jsTrim text) = .error e0 →
        p 1 (jsTrim text) = .error e1 →
        p 2 (jsTrim text) = .ok v →
        EmbeddingService.generateEmbedding
          { provider := p, maxRetries := 3, initialDelayMs := d0,
            backoffFactor := bf, aborted := false } text =
          (.ok v, [d0, d0 * bf])) ∧
    (∀ (maxR bf d0 k : Nat) (fn : Nat → Except String (List Int))
        (v : List Int),
        k ≤ maxR → (∀ i, i < k → ∃ e, fn i = .error e) → fn k = .ok v →
        withRetryGo maxR bf false fn 0 d0 [] =
          (.ok v, (List.range k).map (fun i => d0 * bf ^ i))) ∧
    (∀ (maxR bf d0 : Nat) (fn : Nat → Except String (List Int))
        (E : Nat → String),
        (∀ i, i ≤ maxR → fn i = .error (E i)) →
        withRetryGo maxR bf false fn 0 d0 [] =
          (.error (E maxR), (List.range maxR).map (fun i => d0 * bf ^ i))) ∧
    (∀ (maxR bf d0 : Nat) (ab : Bool)
        (fn gn : Nat → Except String (List Int)),
        (∀ i, i ≤ maxR → fn i = gn i) →
        withRetryGo maxR bf ab fn 0 d0 [] =
          withRetryGo maxR bf ab gn 0 d0 []) := by
  refine ⟨?_, ?_, ?_, ?_⟩
  · intro p text d0 bf v e0 e1 htrim h0 h1 h2
    unfold EmbeddingService.generateEmbedding
    rw [if_neg htrim]
    unfold EmbeddingService.withRetry
    have := withRetryGo_ok 3 bf (fun a => p a (jsTrim text)) 2 0 d0 [] v
      (by omega)
      (fun i hi => by
        rcases i with _ | _ | n
        · exact ⟨e0, h0⟩
        · exact ⟨e1, h1⟩
        · omega)
      h2
    rw [this]
    simp [List.range_succ]
  · intro maxR bf d0 k fn v hk hfail hok
    have := withRetryGo_ok maxR bf fn k 0 d0 [] v (by omega)
      (fun i hi => by simpa using hfail i hi) (by simpa using hok)
    simpa using this
  · intro maxR bf d0 fn E hE
    have := withRetryGo_all_fail maxR bf fn E hE maxR 0 d0 [] (by omega)
      (by omega)
    simpa using this
  · intro maxR bf d0 ab fn gn h
    exact withRetryGo_congr maxR bf ab fn gn h (maxR + 1) 0 d0 [] (by omega)

theorem embedding_retry_backoff_spec_witness :
    EmbeddingService.generateEmbedding
      { provider := fun a _ => if a < 2 then .error "boom" else .ok [7],
        maxRetries := 3, initialDelayMs := 500, backoffFactor := 2,
        aborted := false } "hi" =
      (.ok [7], [500, 1000]) := by
  have := embedding_retry_backoff_spec.1
    (fun a _ => if a < 2 then .error "boom" else .ok [7]) "hi" 500 2 [7]
    "boom" "boom" (by decide) rfl rfl rfl
  simpa using this

/-! ## C2: creation with automatic bidirectional linking -/

/-- The new row of a successful insert is found after the existing rows. -/
theorem getMemory_append_right (st : Store) (N : Memory)
    (h : getMemory st N.id = none) : getMemory (st ++ [N]) N.id = some N := by
  unfold getMemory at *
  rw [List.find?_append, h]
  simp

/-- **C2.** With non-blank content and entity id, and `relatedIds = [R]`
for an existing node `R` of the same entity (and an embedding provider that
does not fail, or none configured), `handleCreateMemory` succeeds and yields
a stored new node `N` whose `outgoingEdges` are exactly `[R]`; after the
call `R`'s `outgoingEdges` contain `N`'s id, the back-reference having been
appended only if it was not already present — as a side effect of creation,
not a separate request. -/
theorem createMemory_bidirectional (svc : Option EmbeddingService)
    (st : Store) (p : CreateMemoryParams) (rid : String) (R : Memory)
    (hrel : p.relatedMemoryIds = [rid])
    (hc : jsTrim p.content ≠ "") (hee : jsTrim p.entityId ≠ "")
    (hR : getMemory st rid = some R) (hRe : R.entityId = p.entityId)
    (hsvc : ∀ s, svc = some s →
      ∃ v, (s.generateEmbedding (jsTrim p.content)).1 = .ok v) :
    ∃ N R',
      (handleCreateMemory svc st p).1 = .ok N ∧
      N.id = freshId st ∧
      N.outgoingEdges = [rid] ∧
      N.entityId = p.entityId ∧
      N.content = jsTrim p.content ∧
      getMemory (handleCreateMemory svc st p).2 N.id = some N ∧
      getMemory (handleCreateMemory svc st p).2 rid = some R' ∧
      N.id ∈ R'.outgoingEdges ∧
      (N.id ∉ R.outgoingEdges →
        R' = { R with outgoingEdges := R.outgoingEdges ++ [N.id] }) ∧
      (N.id ∈ R.outgoingEdges → R' = R) := by
  have hce : ¬(p.content = "" ∨ jsTrim p.content = "") := by
    rintro (h | h)
    · apply hc
      rw [h]
      decide
    · exact hc h
  have heee : ¬(p.entityId = "" ∨ jsTrim p.entityId = "") := by
    rintro (h | h)
    · apply hee
      rw [h]
      decide
    · exact hee h
  have hval : validateRelated st p.entityId p.relatedMemoryIds = none := by
    rw [hrel]
    unfold validateRelated
    rw [hR]
    dsimp only
    rw [if_neg (show ¬R.entityId ≠ p.entityId from fun h => h hRe)]
    rfl
  obtain ⟨emb, hcreate⟩ :
      ∃ emb, storageCreateMemory svc st p.entityId (jsTrim p.content) none
          p.relatedMemoryIds true =
        .ok (adapterCreateMemory st p.entityId (jsTrim p.content) emb
          p.relatedMemoryIds) := by
    rcases svc with _ | s
    · exact ⟨none, rfl⟩
    · obtain ⟨v, hv⟩ := hsvc s rfl
      refine ⟨some v, ?_⟩
      unfold storageCreateMemory
      dsimp only
      rw [hv]
  have hfresh : rid ≠ freshId st := getMemory_ne_freshId hR
  have hRid : R.id = rid := getMemory_eq_id hR
  set N : Memory :=
    ⟨freshId st, p.entityId, jsTrim p.content, emb, p.relatedMemoryIds⟩
    with hN
  have hmain : handleCreateMemory svc st p =
      (.ok N, linkRelated (freshId st) (st ++ [N]) [rid]) := by
    unfold handleCreateMemory
    rw [if_neg hce, if_neg heee, hval, hcreate]
    dsimp only
    rw [hrel]
    simp only [adapterCreateMemory]
    rw [hN, hrel]
  have hR1 : getMemory (st ++ [N]) rid = some R := getMemory_append_left hR _
  have hNlook1 : getMemory (st ++ [N]) (freshId st) = some N :=
    getMemory_append_right st N
      (getMemory_eq_none (fun m hm => freshId_not_mem hm))
  have hlink : linkRelated (freshId st) (st ++ [N]) [rid] =
      if freshId st ∈ R.outgoingEdges then st ++ [N]
      else updateRows (st ++ [N]) rid
        { outgoingEdges := some (R.outgoingEdges ++ [freshId st]) } := by
    unfold linkRelated
    rw [hR1]
    dsimp only
    by_cases hmem : freshId st ∈ R.outgoingEdges
    · rw [if_pos hmem]
      rfl
    · rw [if_neg hmem]
      rfl
  by_cases hmem : freshId st ∈ R.outgoingEdges
  · refine ⟨N, R, ?_, rfl, hrel, rfl, rfl, ?_, ?_, ?_, ?_, fun _ => rfl⟩
    · rw [hmain]
    · rw [hmain]
      dsimp only
      rw [hlink, if_pos hmem]
      exact hNlook1
    · rw [hmain]
      dsimp only
      rw [hlink, if_pos hmem]
      exact hR1
    · exact hmem
    · intro hc'
      exact absurd hmem hc'
  · set R2 : Memory :=
      ⟨R.id, R.entityId, R.content, R.embedding,
        R.outgoingEdges ++ [freshId st]⟩
      with hR2
    refine ⟨N, R2, ?_, rfl, hrel, rfl, rfl, ?_, ?_, ?_, fun _ => rfl, ?_⟩
    · rw [hmain]
    · rw [hmain]
      dsimp only
      rw [hlink, if_neg hmem, getMemory_updateRows, hNlook1]
      simp [Ne.symm hfresh]
    · rw [hmain]
      dsimp only
      rw [hlink, if_neg hmem, getMemory_updateRows, hR1]
      simp [hR2, hRid, applyUpdates]
    · simp
    · intro hc'
      exact absurd hc' hmem

/-- One-row store used by the create witness. -/
def createWitnessStore : Store :=
  [{ id := "r", entityId := "e", content := "rc" }]

theorem createMemory_bidirectional_witness :
    ∃ N R',
      (handleCreateMemory none createWitnessStore
          { content := "hello", entityId := "e",
            relatedMemoryIds := ["r"] }).1 = .ok N ∧
      N.id = freshId createWitnessStore ∧
      N.outgoingEdges = ["r"] ∧
      N.entityId = "e" ∧
      N.content = jsTrim "hello" ∧
      getMemory (handleCreateMemory none createWitnessStore
          { content := "hello", entityId := "e",
            relatedMemoryIds := ["r"] }).2 N.id = some N ∧
      getMemory (handleCreateMemory none createWitnessStore
          { content := "hello", entityId := "e",
            relatedMemoryIds := ["r"] }).2 "r" = some R' ∧
      N.id ∈ R'.outgoingEdges ∧
      (N.id ∉ ({ id := "r", entityId := "e", content := "rc" } :
          Memory).outgoingEdges →
        R' = { ({ id := "r", entityId := "e", content := "rc" } : Memory) with
          outgoingEdges :=
            ({ id := "r", entityId := "e", content := "rc" } :
              Memory).outgoingEdges ++ [N.id] }) ∧
      (N.id ∈ ({ id := "r", entityId := "e", content := "rc" } :
          Memory).outgoingEdges →
        R' = { id := "r", entityId := "e", content := "rc" }) :=
  createMemory_bidirectional none createWitnessStore
    { content := "hello", entityId := "e", relatedMemoryIds := ["r"] }
    "r" { id := "r", entityId := "e", content := "rc" }
    rfl (by decide) (by decide) (by decide) rfl
    (fun s h => nomatch h)

/-! ## C3: delete with cascading edge cleanup -/

/-- `find?` over a cons, specialised to id lookup. -/
theorem find?_cons_id (a : Memory) (l : List Memory) (x : String) :
    (a :: l).find? (fun m => m.id == x) =
      if a.id == x then some a else l.find? (fun m => m.id == x) := by
  by_cases h : a.id == x
  · rw [if_pos h]
    exact List.find?_cons_of_pos _ h
  · rw [if_neg h]
    exact List.find?_cons_of_neg _ h

/-- After `DELETE … WHERE id`, other rows are looked up unchanged. -/
theorem getMemory_filter_ne (st : Store) (i x : String) (hx : x ≠ i) :
    getMemory (st.filter (fun m => !(m.id == i))) x = getMemory st x := by
  unfold getMemory
  induction st with
  | nil => rfl
  | cons a st ih =>
    rw [List.filter_cons]
    by_cases hai : a.id == i
    · have hax : ¬(a.id == x) := by
        simp only [beq_iff_eq] at *
        rw [hai]
        exact fun hc => hx hc.symm
      simp only [hai, Bool.not_true, if_false, ite_false]
      rw [find?_cons_id, if_neg hax]
      exact ih
    · simp only [hai, Bool.not_false, if_true, ite_true]
      rw [find?_cons_id, find?_cons_id]
      by_cases hax : a.id == x
      · rw [if_pos hax, if_pos hax]
      · rw [if_neg hax, if_neg hax]
        exact ih

/-- After `DELETE … WHERE id`, the row itself is gone. -/
theorem getMemory_filter_self (st : Store) (i : String) :
    getMemory (st.filter (fun m => !(m.id == i))) i = none := by
  apply getMemory_eq_none
  intro m hm
  have := (List.mem_filter.mp hm).2
  simpa using this

/-- In a list of rows with pairwise-distinct ids, looking up a member's id
finds exactly that member. -/
theorem find?_id_of_mem_nodup {L : List Memory} {m : Memory}
    (hnd : (L.map (fun r => r.id)).Nodup) (hm : m ∈ L) :
    L.find? (fun r => r.id == m.id) = some m := by
  induction L with
  | nil => exact absurd hm (List.not_mem_nil m)
  | cons a L ih =>
    rcases List.mem_cons.mp hm with rfl | hm'
    · rw [find?_cons_id, if_pos (by simp)]
    · have hna : ¬(a.id == m.id) := by
        simp only [beq_iff_eq]
        intro hc
        have : a.id ∈ L.map (fun r => r.id) := by
          rw [hc]
          exact List.mem_map_of_mem _ hm'
        exact (List.nodup_cons.mp (by simpa using hnd)).1 this
      rw [find?_cons_id, if_neg hna]
      exact ih (by simpa using (List.nodup_cons.mp (by simpa using hnd)).2) hm'

/-- Pointwise characterisation of the cleanup sweep: a row whose id occurs
in the (distinct-id) snapshot `L` gets its `outgoingEdges` replaced by the
snapshot entry's edges with the deleted id filtered out; all other rows are
untouched. -/
theorem deleteCleanup_getMemory (i : String) :
    ∀ (L : List Memory) (stc : Store) (x : String),
      (L.map (fun r => r.id)).Nodup →
      getMemory (deleteCleanup i stc L) x =
        (match L.find? (fun r => r.id == x) with
        | some m => (getMemory stc x).map
            (fun r => { r with outgoingEdges :=
              m.outgoingEdges.filter (fun j => j ≠ i) })
        | none => getMemory stc x) := by
  intro L
  induction L with
  | nil =>
    intro stc x _
    rfl
  | cons m L ih =>
    intro stc x hnd
    rw [deleteCleanup]
    rw [ih _ x (by simpa using (List.nodup_cons.mp (by simpa using hnd)).2)]
    by_cases hmx : m.id == x
    · have hmx' : m.id = x := by simpa using hmx
      rw [find?_cons_id, if_pos hmx]
      have hLnone : L.find? (fun r => r.id == x) = none := by
        rw [List.find?_eq_none]
        intro r hr
        simp only [beq_iff_eq]
        intro hc
        have : m.id ∈ L.map (fun r => r.id) := by
          rw [hmx', ← hc]
          exact List.mem_map_of_mem _ hr
        exact (List.nodup_cons.mp (by simpa using hnd)).1 this
      rw [hLnone, getMemory_updateRows]
      cases hro : getMemory stc x with
      | none => rfl
      | some r =>
        have hpr : r.id = m.id := by
          rw [getMemory_eq_id hro, hmx']
        simp [hpr, applyUpdates]
    · rw [find?_cons_id, if_neg hmx]
      have hgm : getMemory (updateRows stc m.id
          { outgoingEdges :=
              some (m.outgoingEdges.filter (fun j => j ≠ i)) }) x =
          getMemory stc x := by
        rw [getMemory_updateRows]
        cases hro : getMemory stc x with
        | none => rfl
        | some r =>
          have hpr : ¬r.id = m.id := by
            rw [getMemory_eq_id hro]
            intro hc
            exact (by simpa using hmx : ¬m.id = x) hc.symm
          simp [hpr]
      rw [hgm]

/-- **C3.** `handleDeleteMemory` on an existing node `n` (in a store with
unique row ids, as the primary key guarantees) succeeds: every node of `n`'s
entity gets its `outgoingEdges` rewritten with `n`'s id removed and the
other entries kept (a node with `[n, k]` ends with `[k]`; cross-entity nodes
are not scanned), and `n` itself is deleted.  On an unknown id it fails with
the not-found error and the store is untouched. -/
theorem deleteMemory_cascade (st : Store) (p : DeleteMemoryParams)
    (n : Memory) (hid : jsTrim p.memoryId ≠ "")
    (hnodup : (st.map (fun m => m.id)).Nodup) :
    (getMemory st p.memoryId = none →
      handleDeleteMemory st p =
        (.failed ("Memory with UUID " ++ p.memoryId ++ " not found"), st)) ∧
    (getMemory st p.memoryId = some n →
      (handleDeleteMemory st p).1 = { success := true } ∧
      getMemory (handleDeleteMemory st p).2 p.memoryId = none ∧
      ∀ m ∈ st, m.id ≠ p.memoryId →
        getMemory (handleDeleteMemory st p).2 m.id =
          some (if m.entityId = n.entityId
            then { m with outgoingEdges :=
              m.outgoingEdges.filter (fun j => j ≠ p.memoryId) }
            else m)) := by
  have hide : ¬(p.memoryId = "" ∨ jsTrim p.memoryId = "") := by
    rintro (h | h)
    · apply hid
      rw [h]
      decide
    · exact hid h
  constructor
  · intro hnone
    unfold handleDeleteMemory
    rw [if_neg hide, hnone]
  · intro hsome
    have hmain : handleDeleteMemory st p =
        ({ success := true },
         (deleteCleanup p.memoryId st
            ((getMemoriesByEntity st n.entityId).filter
              (fun m => p.memoryId ∈ m.outgoingEdges))).filter
           (fun m => !(m.id == p.memoryId))) := by
      unfold handleDeleteMemory
      rw [if_neg hide, hsome]
      dsimp only
      rw [if_pos (by
        unfold adapterDeleteMemory
        dsimp only
        exact deleteCleanup_any_id hsome _)]
      rfl
    have hLnd : ((((getMemoriesByEntity st n.entityId).filter
        (fun m => p.memoryId ∈ m.outgoingEdges)).map
          (fun m => m.id))).Nodup := by
      have h1 : (((getMemoriesByEntity st n.entityId).filter
          (fun m => p.memoryId ∈ m.outgoingEdges)).map (fun m => m.id)).Sublist
          ((getMemoriesByEntity st n.entityId).map (fun m => m.id)) :=
        (List.filter_sublist _).map _
      have h2 : ((getMemoriesByEntity st n.entityId).map
          (fun m => m.id)).Nodup := by
        unfold getMemoriesByEntity
        rw [List.map_reverse, List.nodup_reverse]
        exact ((List.filter_sublist st).map _).nodup hnodup
      exact h2.sublist h1
    have hLmem : ∀ m : Memory,
        (m ∈ (getMemoriesByEntity st n.entityId).filter
          (fun m => p.memoryId ∈ m.outgoingEdges)) ↔
        (m ∈ st ∧ m.entityId = n.entityId ∧ p.memoryId ∈ m.outgoingEdges) := by
      intro m
      unfold getMemoriesByEntity
      rw [List.mem_filter, List.mem_reverse, List.mem_filter]
      simp only [beq_iff_eq, decide_eq_true_eq]
      tauto
    refine ⟨by rw [hmain], ?_, ?_⟩
    · rw [hmain]
      dsimp only
      exact getMemory_filter_self _ _
    · intro m hm hmne
      rw [hmain]
      dsimp only
      rw [getMemory_filter_ne _ _ _ hmne,
        deleteCleanup_getMemory _ _ _ _ hLnd]
      have hstm : getMemory st m.id = some m :=
        find?_id_of_mem_nodup hnodup hm
      by_cases hcase : m.entityId = n.entityId ∧ p.memoryId ∈ m.outgoingEdges
      · have hmemL : m ∈ (getMemoriesByEntity st n.entityId).filter
            (fun m => p.memoryId ∈ m.outgoingEdges) :=
          (hLmem m).mpr ⟨hm, hcase.1, hcase.2⟩
        rw [find?_id_of_mem_nodup hLnd hmemL, hstm]
        simp [hcase.1]
      · have hfind : ((getMemoriesByEntity st n.entityId).filter
            (fun m => p.memoryId ∈ m.outgoingEdges)).find?
              (fun r => r.id == m.id) = none := by
          rw [List.find?_eq_none]
          intro r hr
          simp only [beq_iff_eq]
          intro hc
          have hrst := ((hLmem r).mp hr).1
          have hrm : r = m := List.inj_on_of_nodup_map hnodup hrst hm hc
          subst hrm
          exact hcase ⟨((hLmem r).mp hr).2.1, ((hLmem r).mp hr).2.2⟩
        rw [hfind, hstm]
        by_cases hent : m.entityId = n.entityId
        · have hedge : p.memoryId ∉ m.outgoingEdges :=
            fun hc => hcase ⟨hent, hc⟩
          rw [if_pos hent]
          have hfe : m.outgoingEdges.filter (fun j => j ≠ p.memoryId) =
              m.outgoingEdges := by
            rw [List.filter_eq_self]
            intro a ha
            simp only [ne_eq, decide_not, Bool.not_eq_true', decide_eq_false_iff_not]
            exact fun hc => hedge (hc ▸ ha)
          rw [hfe]
        · rw [if_neg hent]

/-- Two-node store used by the delete witness: `m` points at `n` and at the
dangling id `k`. -/
def delWitnessStore : Store :=
  [{ id := "n", entityId := "e", content := "nc" },
   { id := "m", entityId := "e", content := "mc", outgoingEdges := ["n", "k"] }]

theorem deleteMemory_cascade_witness :
    (handleDeleteMemory delWitnessStore { memoryId := "n" }).1 =
      { success := true } ∧
    getMemory (handleDeleteMemory delWitnessStore { memoryId := "n" }).2 "n" =
      none ∧
    getMemory (handleDeleteMemory delWitnessStore { memoryId := "n" }).2 "m" =
      some { id := "m", entityId := "e", content := "mc",
             outgoingEdges := ["k"] } := by
  have h := (deleteMemory_cascade delWitnessStore { memoryId := "n" }
    { id := "n", entityId := "e", content := "nc" } (by decide) (by decide)).2
    (by decide)
  refine ⟨h.1, h.2.1, ?_⟩
  have h3 := h.2.2 ⟨"m", "e", "mc", none, ["n", "k"]⟩ (by decide) (by decide)
  simpa +decide using h3

/-! ## C9: no duplicate edges, no self-edges -/

/-- The edge-set invariant of claim C9: no node's `outgoingEdges` contain a
duplicate id or the node's own id. -/
def edgeInvariant (st : Store) : Prop :=
  ∀ m ∈ st, m.outgoingEdges.Nodup ∧ m.id ∉ m.outgoingEdges

instance (st : Store) : Decidable (edgeInvariant st) := by
  unfold edgeInvariant
  infer_instance

/-- One-row store for the duplicate-related-ids counterexample. -/
def dupStore : Store := [{ id := "r", entityId := "e", content := "rc" }]

/-- Counterexample to C9 as stated: `handleCreateMemory` with
`relatedMemoryIds = ["r", "r"]` passes validation (both entries exist) and
creates a node whose `outgoingEdges` are `["r", "r"]` — a duplicate edge —
even though the store satisfied the invariant beforehand. -/
theorem createMemory_duplicate_edge_counterexample :
    edgeInvariant dupStore ∧
    ¬ edgeInvariant (handleCreateMemory none dupStore
      { content := "c", entityId := "e",
        relatedMemoryIds := ["r", "r"] }).2 := by
  constructor
  · decide
  · decide

theorem edgeInvariant_updateRows (st : Store) (i : String) (L : List String)
    (hinv : edgeInvariant st) (hL : L.Nodup) (hiL : i ∉ L) :
    edgeInvariant (updateRows st i { outgoingEdges := some L }) := by
  intro m' hm'
  unfold updateRows at hm'
  rcases List.mem_map.mp hm' with ⟨m, hm, hEq⟩
  subst hEq
  by_cases h : m.id == i
  · rw [if_pos h]
    have hid : m.id = i := by simpa using h
    refine ⟨hL, ?_⟩
    show (applyUpdates { outgoingEdges := some L } m).id ∉ L
    rw [applyUpdates_id, hid]
    exact hiL
  · rw [if_neg h]
    exact hinv m hm

/-- Updates that do not touch `outgoingEdges` preserve the invariant. -/
theorem edgeInvariant_updateRows_noEdges (st : Store) (i : String)
    (u : MemoryUpdates) (hinv : edgeInvariant st)
    (hu : u.outgoingEdges = none) :
    edgeInvariant (updateRows st i u) := by
  intro m' hm'
  unfold updateRows at hm'
  rcases List.mem_map.mp hm' with ⟨m, hm, hEq⟩
  subst hEq
  by_cases h : m.id == i
  · rw [if_pos h]
    have hedges : (applyUpdates u m).outgoingEdges = m.outgoingEdges := by
      unfold applyUpdates
      rw [hu]
      rfl
    rw [hedges, applyUpdates_id]
    exact hinv m hm
  · rw [if_neg h]
    exact hinv m hm

theorem edgeInvariant_append_new (st : Store) (N : Memory)
    (hinv : edgeInvariant st) (hN : N.outgoingEdges.Nodup)
    (hNs : N.id ∉ N.outgoingEdges) : edgeInvariant (st ++ [N]) := by
  intro m hm
  rcases List.mem_append.mp hm with hm' | hm'
  · exact hinv m hm'
  · have : m = N := by simpa using hm'
    subst this
    exact ⟨hN, hNs⟩

theorem edgeInvariant_filter (st : Store) (q : Memory → Bool)
    (hinv : edgeInvariant st) : edgeInvariant (st.filter q) :=
  fun m hm => hinv m (List.mem_of_mem_filter hm)

theorem validateRelated_none_exists {st : Store} {e : String} :
    ∀ {rids : List String}, validateRelated st e rids = none →
      ∀ rid ∈ rids, ∃ R, getMemory st rid = some R := by
  intro rids
  induction rids with
  | nil =>
    intro _ rid hr
    exact absurd hr (List.not_mem_nil rid)
  | cons r rest ih =>
    intro h rid hr
    unfold validateRelated at h
    rcases hg : getMemory st r with _ | R
    · rw [hg] at h
      exact absurd h (by simp)
    · rw [hg] at h
      dsimp only at h
      by_cases hent : R.entityId ≠ e
      · rw [if_pos hent] at h
        exact absurd h (by simp)
      · rw [if_neg hent] at h
        rcases List.mem_cons.mp hr with rfl | hr'
        · exact ⟨R, hg⟩
        · exact ih h rid hr'

theorem linkRelated_edgeInvariant (newId : String) :
    ∀ (rids : List String) (stc : Store),
      edgeInvariant stc → (∀ rid ∈ rids, rid ≠ newId) →
      edgeInvariant (linkRelated newId stc rids) := by
  intro rids
  induction rids with
  | nil =>
    intro stc h _
    exact h
  | cons rid rest ih =>
    intro stc hinv hne
    rw [linkRelated]
    rcases hg : getMemory stc rid with _ | rm
    · exact ih _ hinv (fun r hr => hne r (List.mem_cons_of_mem _ hr))
    · dsimp only
      by_cases hmem : newId ∈ rm.outgoingEdges
      · rw [if_pos hmem]
        exact ih _ hinv (fun r hr => hne r (List.mem_cons_of_mem _ hr))
      · rw [if_neg hmem]
        refine ih _ ?_ (fun r hr => hne r (List.mem_cons_of_mem _ hr))
        apply edgeInvariant_updateRows _ _ _ hinv
        · have hnd := (hinv rm (getMemory_mem hg)).1
          rw [List.nodup_append]
          exact ⟨hnd, List.nodup_singleton _, by
            intro a ha hb
            rw [List.mem_singleton] at hb
            subst hb
            exact hmem ha⟩
        · intro hc
          rcases List.mem_append.mp hc with hc' | hc'
          · have hrid : rm.id = rid := getMemory_eq_id hg
            exact (hinv rm (getMemory_mem hg)).2 (hrid ▸ hc')
          · have : rid = newId := by simpa using hc'
            exact hne rid (List.mem_cons_self _ _) this

theorem deleteCleanup_edgeInvariant (i : String) :
    ∀ (L : List Memory) (stc : Store),
      edgeInvariant stc →
      (∀ m ∈ L, m.outgoingEdges.Nodup ∧ m.id ∉ m.outgoingEdges) →
      edgeInvariant (deleteCleanup i stc L) := by
  intro L
  induction L with
  | nil =>
    intro stc h _
    exact h
  | cons m L ih =>
    intro stc hinv hL
    rw [deleteCleanup]
    refine ih _ ?_ (fun r hr => hL r (List.mem_cons_of_mem _ hr))
    apply edgeInvariant_updateRows _ _ _ hinv
    · exact ((hL m (List.mem_cons_self _ _)).1).filter _
    · intro hc
      exact (hL m (List.mem_cons_self _ _)).2 (List.mem_of_mem_filter hc)

theorem adapterUpdateMemory_ok {st : Store} {i : String} {u : MemoryUpdates}
    {m' : Memory} {st' : Store}
    (h : adapterUpdateMemory st i u = .ok (m', st')) :
    st' = updateRows st i u := by
  unfold adapterUpdateMemory at h
  rcases hg : getMemory st i with _ | m
  · rw [hg] at h
    exact absurd h (by simp)
  · rw [hg] at h
    dsimp only at h
    have := Except.ok.inj h
    exact (Prod.mk.injEq _ _ _ _ ▸ this).2.symm

theorem storageCreateMemory_ok {svc : Option EmbeddingService} {st : Store}
    {entityId content : String} {emb0 : Option (List Int)}
    {rids : List String} {auto : Bool} {m : Memory} {st' : Store}
    (h : storageCreateMemory svc st entityId content emb0 rids auto =
      .ok (m, st')) :
    m.id = freshId st ∧ m.outgoingEdges = rids ∧ st' = st ++ [m] := by
  unfold storageCreateMemory at h
  have hshape : ∀ (e : Option (List Int)),
      Except.ok (adapterCreateMemory st entityId content e rids) =
        (.ok (m, st') : Except String (Memory × Store)) →
      m.id = freshId st ∧ m.outgoingEdges = rids ∧ st' = st ++ [m] := by
    intro e he
    have := Except.ok.inj he
    unfold adapterCreateMemory at this
    dsimp only at this
    rw [Prod.mk.injEq] at this
    rcases this with ⟨hm, hst⟩
    rw [← hm, ← hst]
    exact ⟨rfl, rfl, rfl⟩
  rcases emb0 with _ | e0
  · rcases auto with _ | _
    · exact hshape none h
    · rcases svc with _ | s
      · exact hshape none h
      · dsimp only at h
        rcases hgen : (s.generateEmbedding content).1 with e | v
        · rw [hgen] at h
          exact absurd h (by simp)
        · rw [hgen] at h
          exact hshape (some v) h
  · exact hshape (some e0) h

theorem storageUpdateMemory_ok {svc : Option EmbeddingService} {st : Store}
    {i : String} {u : MemoryUpdates} {m' : Memory} {st' : Store}
    (h : storageUpdateMemory svc st i u = .ok (m', st')) :
    ∃ u' : MemoryUpdates, u'.outgoingEdges = u.outgoingEdges ∧
      st' = updateRows st i u' := by
  unfold storageUpdateMemory at h
  rcases hc : u.content with _ | c
  · rw [hc] at h
    exact ⟨u, rfl, adapterUpdateMemory_ok h⟩
  · rcases he : u.embedding with _ | e
    · rcases svc with _ | s
      · rw [hc, he] at h
        exact ⟨u, rfl, adapterUpdateMemory_ok h⟩
      · rw [hc, he] at h
        dsimp only at h
        by_cases hce : c = ""
        · rw [if_pos hce] at h
          exact ⟨u, rfl, adapterUpdateMemory_ok h⟩
        · rw [if_neg hce] at h
          rcases hgen : (s.generateEmbedding c).1 with e' | v
          · rw [hgen] at h
            exact absurd h (by simp)
          · rw [hgen] at h
            dsimp only at h
            exact ⟨⟨some c, some v, u.outgoingEdges⟩, rfl,
              adapterUpdateMemory_ok h⟩
    · rw [hc, he] at h
      exact ⟨u, rfl, adapterUpdateMemory_ok h⟩

/-- **C9** (amended).  As stated the claim fails — see
`createMemory_duplicate_edge_counterexample`: `create_memory` with a
duplicated entry in `relatedMemoryIds` produces a node with duplicate
outgoing edges.  Amended with the hypothesis that the requested related ids
are pairwise distinct, `create_memory` preserves the invariant, and the
other three mutating handlers preserve it unconditionally. -/
theorem edgeInvariant_preserved (svc : Option EmbeddingService) (st : Store)
    (hinv : edgeInvariant st) :
    (∀ p : CreateMemoryParams, p.relatedMemoryIds.Nodup →
      edgeInvariant (handleCreateMemory svc st p).2) ∧
    (∀ p : UpdateMemoryParams,
      edgeInvariant (handleUpdateMemory svc st p).2) ∧
    (∀ p : UpdateMemoryLinkParams,
      edgeInvariant (handleUpdateMemoryLink st p).2) ∧
    (∀ p : DeleteMemoryParams,
      edgeInvariant (handleDeleteMemory st p).2) := by
  refine ⟨?_, ?_, ?_, ?_⟩
  · intro p hnd
    unfold handleCreateMemory
    by_cases h1 : p.content = "" ∨ jsTrim p.content = ""
    · rw [if_pos h1]
      exact hinv
    · rw [if_neg h1]
      by_cases h2 : p.entityId = "" ∨ jsTrim p.entityId = ""
      · rw [if_pos h2]
        exact hinv
      · rw [if_neg h2]
        rcases hv : validateRelated st p.entityId p.relatedMemoryIds with _ | e
        · dsimp only
          rcases hc : storageCreateMemory svc st p.entityId (jsTrim p.content)
              none p.relatedMemoryIds true with e | ⟨N, st1⟩
          · exact hinv
          · dsimp only
            obtain ⟨hNid, hNe, hst1⟩ := storageCreateMemory_ok hc
            have hex := validateRelated_none_exists hv
            have hne : ∀ rid ∈ p.relatedMemoryIds, rid ≠ N.id := by
              intro rid hr
              obtain ⟨R, hR⟩ := hex rid hr
              rw [hNid]
              exact getMemory_ne_freshId hR
            refine linkRelated_edgeInvariant N.id p.relatedMemoryIds st1
              ?_ hne
            rw [hst1]
            apply edgeInvariant_append_new st N hinv
            · rw [hNe]
              exact hnd
            · rw [hNe]
              intro hcN
              obtain ⟨R, hR⟩ := hex N.id hcN
              exact getMemory_ne_freshId hR hNid
        · exact hinv
  · intro p
    unfold handleUpdateMemory
    by_cases h1 : p.memoryId = "" ∨ jsTrim p.memoryId = ""
    · rw [if_pos h1]
      exact hinv
    · rw [if_neg h1]
      by_cases h2 : p.content = "" ∨ jsTrim p.content = ""
      · rw [if_pos h2]
        exact hinv
      · rw [if_neg h2]
        rcases hg : getMemory st p.memoryId with _ | m
        · exact hinv
        · dsimp only
          rcases hs : storageUpdateMemory svc st p.memoryId
              ⟨some (jsTrim p.content), none, none⟩ with e | ⟨m', st'⟩
          · exact hinv
          · dsimp only
            obtain ⟨u', hu'e, hst'⟩ := storageUpdateMemory_ok hs
            rw [hst']
            exact edgeInvariant_updateRows_noEdges st p.memoryId u' hinv
              (hu'e.trans rfl)
  · intro p
    unfold handleUpdateMemoryLink
    by_cases h1 : p.fromMemoryId = "" ∨ jsTrim p.fromMemoryId = ""
    · rw [if_pos h1]
      exact hinv
    · rw [if_neg h1]
      by_cases h2 : p.toMemoryId = "" ∨ jsTrim p.toMemoryId = ""
      · rw [if_pos h2]
        exact hinv
      · rw [if_neg h2]
        by_cases h3 : p.fromMemoryId = p.toMemoryId
        · rw [if_pos h3]
          exact hinv
        · rw [if_neg h3]
          by_cases h4 : p.action ≠ "add" ∧ p.action ≠ "remove"
          · rw [if_pos h4]
            exact hinv
          · rw [if_neg h4]
            rcases hgf : getMemory st p.fromMemoryId with _ | fromMemory
            · exact hinv
            · dsimp only
              rcases hgt : getMemory st p.toMemoryId with _ | toMemory
              · exact hinv
              · dsimp only
                by_cases h5 : fromMemory.entityId ≠ toMemory.entityId
                · rw [if_pos h5]
                  exact hinv
                · rw [if_neg h5]
                  have hfid : fromMemory.id = p.fromMemoryId :=
                    getMemory_eq_id hgf
                  have hfmem := getMemory_mem hgf
                  by_cases h6 : p.action = "add"
                  · rw [if_pos h6]
                    by_cases h7 : p.toMemoryId ∈ fromMemory.outgoingEdges
                    · rw [if_pos h7]
                      exact hinv
                    · rw [if_neg h7]
                      rcases ha : adapterUpdateMemory st p.fromMemoryId
                          ⟨none, none, some (fromMemory.outgoingEdges ++
                            [p.toMemoryId])⟩ with e | ⟨m', st'⟩
                      · exact hinv
                      · dsimp only
                        rw [adapterUpdateMemory_ok ha]
                        apply edgeInvariant_updateRows st p.fromMemoryId _
                          hinv
                        · rw [List.nodup_append]
                          refine ⟨(hinv fromMemory hfmem).1,
                            List.nodup_singleton _, ?_⟩
                          intro a ha1 ha2
                          rw [List.mem_singleton] at ha2
                          subst ha2
                          exact h7 ha1
                        · intro hcf
                          rcases List.mem_append.mp hcf with hcf' | hcf'
                          · exact (hinv fromMemory hfmem).2 (hfid ▸ hcf')
                          · exact h3 (by simpa using hcf')
                  · rw [if_neg h6]
                    by_cases h7 : p.toMemoryId ∉ fromMemory.outgoingEdges
                    · rw [if_pos h7]
                      exact hinv
                    · rw [if_neg h7]
                      rcases ha : adapterUpdateMemory st p.fromMemoryId
                          ⟨none, none, some (fromMemory.outgoingEdges.erase
                            p.toMemoryId)⟩ with e | ⟨m', st'⟩
                      · exact hinv
                      · dsimp only
                        rw [adapterUpdateMemory_ok ha]
                        apply edgeInvariant_updateRows st p.fromMemoryId _
                          hinv
                        · exact (hinv fromMemory hfmem).1.erase _
                        · intro hcf
                          exact (hinv fromMemory hfmem).2
                            (hfid ▸ List.mem_of_mem_erase hcf)
  · intro p
    unfold handleDeleteMemory
    by_cases h1 : p.memoryId = "" ∨ jsTrim p.memoryId = ""
    · rw [if_pos h1]
      exact hinv
    · rw [if_neg h1]
      rcases hg : getMemory st p.memoryId with _ | m
      · exact hinv
      · dsimp only
        have hL : ∀ x ∈ (getMemoriesByEntity st m.entityId).filter
            (fun x => p.memoryId ∈ x.outgoingEdges),
            x.outgoingEdges.Nodup ∧ x.id ∉ x.outgoingEdges := by
          intro x hx
          have hx1 := List.mem_of_mem_filter hx
          unfold getMemoriesByEntity at hx1
          rw [List.mem_reverse] at hx1
          exact hinv x (List.mem_of_mem_filter hx1)
        split
        · exact edgeInvariant_filter _ _
            (deleteCleanup_edgeInvariant _ _ _ hinv hL)
        · exact edgeInvariant_filter _ _
            (deleteCleanup_edgeInvariant _ _ _ hinv hL)

/-- Witness for C9 (amended): a concrete run of `create_memory` on the
one-row store with distinct related ids keeps the invariant. -/
theorem edgeInvariant_preserved_witness :
    edgeInvariant dupStore ∧ ([("r" : String)]).Nodup ∧
    edgeInvariant (handleCreateMemory none dupStore
      { content := "c", entityId := "e", relatedMemoryIds := ["r"] }).2 :=
  ⟨by decide, by decide,
    (edgeInvariant_preserved none dupStore (by decide)).1
      { content := "c", entityId := "e", relatedMemoryIds := ["r"] }
      (by decide)⟩

end MemoryGraph
